import Mathlib

/-!
# Verification of the static-HTML rendering environment

Shallow embedding of `env-static-html.go` (package `vugu`): the
`StaticHTMLEnv` renderer that expands registered components into a virtual
DOM node graph, aggregates component CSS, converts the node graph into an
output (`html.Node`-like) graph and records what is serialized.

The VGNode pointer graph is modelled as a heap: an association list from
node ids (`Nat`) to node records whose five link fields hold `Option Nat`.
Trees produced by component builders are modelled as a pure inductive
(`VTree`) grafted into the heap at fresh ids.  Mutation is explicit state
passing, Go `error` returns are `Except`/`Option`, and a Go nil-pointer
panic is a distinguished outcome.
-/

set_option autoImplicit false

namespace VuguStatic

/-- Generic association-list lookup (models a Go map read / pointer table). -/
def alook {κ α : Type} [DecidableEq κ] : List (κ × α) → κ → Option α
  | [], _ => none
  | (k, v) :: t, i => if k = i then some v else alook t i

/-- Generic association-list update: replaces the first binding of the key,
or appends a fresh binding (models a Go map write / store through pointer). -/
def aupd {κ α : Type} [DecidableEq κ] : List (κ × α) → κ → α → List (κ × α)
  | [], k, v => [(k, v)]
  | (k0, v0) :: t, k, v => if k0 = k then (k, v) :: t else (k0, v0) :: aupd t k v

/-- Node type, mirroring `VGNodeType` (which mirrors `html.NodeType`). -/
inductive VGNodeType where
  | errorNode
  | textNode
  | documentNode
  | elementNode
  | commentNode
  | doctypeNode
deriving DecidableEq, Inhabited

/-- Property value; `fmt.Sprint` stringification is `sprint` below.
Models the `interface` values stored in a node's `Props`. -/
inductive PropVal where
  | str (s : String)
  | int (n : Int)
  | bool (b : Bool)
deriving DecidableEq, Inhabited

/-- Models `fmt.Sprint` on a property value. -/
def sprint : PropVal → String
  | .str s => s
  | .int n => toString n
  | .bool b => toString b

/-- Mirrors `VGAttribute` / `html.Attribute`: namespace, key, value. -/
structure VGAttribute where
  ns : String
  key : String
  val : String
deriving DecidableEq, Inhabited

/-- Modelled from the spec: the repository's `Props` type (not under `src/`)
is an insertion-ordered mapping from string keys to values, keys unique;
`OrderedKeys` yields the keys in insertion order and `Clone` copies. -/
abbrev PropsList := List (String × PropVal)

/-- A VGNode record.  The five link fields are node ids into the heap
(`none` models a nil pointer). -/
structure VGNode where
  type : VGNodeType
  dataAtom : Nat
  data : String
  ns : String
  attr : List VGAttribute
  props : PropsList
  innerHTML : String
  parent : Option Nat
  firstChild : Option Nat
  lastChild : Option Nat
  prevSibling : Option Nat
  nextSibling : Option Nat
deriving DecidableEq, Inhabited

/-- The VGNode pointer graph: node ids mapped to records. -/
abbrev Heap := List (Nat × VGNode)

/-- Propagation of `Inhabited` default used when a (never dangling in real
executions) node id is dereferenced. -/
def defVGNode : VGNode := default

/-- Per-node content of a builder-produced subtree (everything except the
five link fields, which grafting computes). -/
structure VContent where
  type : VGNodeType
  dataAtom : Nat
  data : String
  ns : String
  attr : List VGAttribute
  props : PropsList
  innerHTML : String
deriving DecidableEq, Inhabited

/-- A pure tree of VGNodes as produced by a component builder, before it is
grafted into the heap (the Go builder allocates linked `VGNode`s directly;
grafting is the embedding of that allocation). -/
inductive VTree where
  | mk (content : VContent) (children : List VTree)

/-- Children of a `VTree`. -/
def VTree.children : VTree → List VTree
  | .mk _ c => c

/-- Content of a `VTree`. -/
def VTree.content : VTree → VContent
  | .mk c _ => c

/-- First child of a `VTree` (models reading `.FirstChild` on the pure
tree form of a style fragment). -/
def VTree.firstChild (t : VTree) : Option VTree := t.children.head?

/-- `instProps props attrs`: lines 78-83 of `env-static-html.go` — clone the
node's `Props` and merge in each static attribute only where its key does
not already exist (`if _, ok := props[a.Key]; !ok`). -/
def instProps (props : PropsList) (attrs : List VGAttribute) : PropsList :=
  attrs.foldl
    (fun acc a => if (alook acc a.key).isSome then acc else acc ++ [(a.key, PropVal.str a.val)])
    props

/-- Inner loop of the `propAttrLoop` in `conv` (lines 192-201): scan the
attribute list for the first attribute with the given key and overwrite its
value in place; if none exists, append a fresh attribute (empty namespace)
at the end. -/
def owa : List VGAttribute → String → String → List VGAttribute
  | [], k, v => [⟨"", k, v⟩]
  | a :: t, k, v => if a.key = k then ⟨a.ns, a.key, v⟩ :: t else a :: owa t k v

/-- Fold of `propAttrLoop` over a list of property keys, looking each key
up in the full property map (source reads `vgn.Props[k]`). -/
def mergeGo (props : PropsList) : List String → List VGAttribute → List VGAttribute
  | [], acc => acc
  | k :: ks, acc =>
    match alook props k with
    | some v => mergeGo props ks (owa acc k (sprint v))
    | none => mergeGo props ks acc

/-- Lines 186-202 of `env-static-html.go`: starting from the copy of the
node's attributes, for each property key in order (`Props.OrderedKeys`)
overwrite the first attribute of that key or append a new one. -/
def mergeAttrs (attrs : List VGAttribute) (props : PropsList) : List VGAttribute :=
  mergeGo props (props.map Prod.fst) attrs

/-- Overlay for the claim-side merge: an attribute whose key has a bound
property takes the stringified property value, in place. -/
def overlayProps (props : PropsList) (a : VGAttribute) : VGAttribute :=
  match alook props a.key with
  | some v => ⟨a.ns, a.key, sprint v⟩
  | none => a

/-- The output-attribute list described by the specification (§4.1 first
rule): each original attribute, in its original position, has its value
overwritten with the stringified property value when a property of the same
key exists; properties whose key matches no attribute are appended at the
end, in property insertion order. -/
def mergeAttrsSpec (attrs : List VGAttribute) (props : PropsList) : List VGAttribute :=
  attrs.map (overlayProps props)
  ++ (props.filter (fun kv => ! attrs.any (fun a => a.key = kv.1))).map
      (fun kv => ⟨"", kv.1, sprint kv.2⟩)

/-- Opaque component instance data; the spec treats it as opaque, the model
uses a properties list as a concrete stand-in. -/
abbrev CompData := PropsList

/-- Result of a component builder: a root subtree and an optional styling
fragment (a node holding literal style text as its first child). -/
structure BuildOut where
  dom : VTree
  css : Option VTree

/-- A component type.  `buildVDOM` mirrors `ComponentType.BuildVDOM`
(declared outside `src/`, used at lines 50 and 91): a pure builder from
instance data to a subtree plus optional style fragment, or an error.
`newData` models the data-construction part of `New` (see `New` below). -/
structure ComponentType where
  newData : PropsList → Except String CompData
  buildVDOM : CompData → Except String BuildOut

/-- Mirrors `ComponentInst`: a component type paired with instance data. -/
structure ComponentInst where
  type : ComponentType
  data : CompData

/-- Modelled from the spec: `New(ct, props)` (repository code not under
`src/`) constructs a component instance from a properties mapping, and may
fail ("Instantiation failure", spec §7). -/
def New (ct : ComponentType) (props : PropsList) : Except String ComponentInst :=
  (ct.newData props).map (fun d => ⟨ct, d⟩)

/-- The component registry (`ComponentTypeMap`): tag name to component type,
unique keys. -/
abbrev Registry := List (String × ComponentType)

/-! ## Grafting builder output into the heap

The Go builder allocates linked `VGNode`s in memory; the model grafts the
pure `VTree` into the heap at fresh ids, setting the five link fields the
way the linked representation holds them. -/

/-- Link an allocated sibling chain: set each child's `prevSibling` and
`nextSibling` (the next id in the list, or `none` for the last). -/
def linkSibs (h : Heap) : Option Nat → List Nat → Heap
  | _, [] => h
  | prev, c :: rest =>
    let cn := (alook h c).getD defVGNode
    let h1 := aupd h c { cn with prevSibling := prev, nextSibling := rest.head? }
    linkSibs h1 (some c) rest

mutual

/-- Graft a tree into the heap: allocate an id for the root, graft the
children with the root as parent, record the root node, link the children
as siblings.  Returns the extended heap, the next free id, and the root id. -/
def graftT (t : VTree) (parent : Option Nat) (h : Heap) (n : Nat) : Heap × Nat × Nat :=
  match t with
  | .mk c children =>
    let id := n
    let r := graftL children id h (n + 1)
    let h2 := aupd r.1 id
      ⟨c.type, c.dataAtom, c.data, c.ns, c.attr, c.props, c.innerHTML,
        parent, r.2.2.head?, r.2.2.getLast?, none, none⟩
    (linkSibs h2 none r.2.2, r.2.1, id)

/-- Graft a list of sibling trees; returns the extended heap, the next free
id, and the ids of the grafted roots in order. -/
def graftL (ts : List VTree) (parent : Nat) (h : Heap) (n : Nat) : Heap × Nat × List Nat :=
  match ts with
  | [] => (h, n, [])
  | t :: rest =>
    let r := graftT t (some parent) h n
    let r2 := graftL rest parent r.1 r.2.1
    (r2.1, r2.2.1, r.2.2 :: r2.2.2)

end

/-! ## The expansion walker -/

/-- Follow a `nextSibling` chain (with fuel) setting each node's `parent`:
lines 103-105 of `env-static-html.go`
(`for cn := cdom.FirstChild; cn != nil; cn = cn.NextSibling`). -/
def reparentChain (h : Heap) (newParent : Nat) : Nat → Option Nat → Heap
  | _, none => h
  | 0, some _ => h
  | fuel + 1, some c =>
    let cn := (alook h c).getD defVGNode
    reparentChain (aupd h c { cn with parent := some newParent }) newParent fuel cn.nextSibling

/-- Lines 100-107 of `env-static-html.go`: splice the replacement subtree
rooted at `cdomId` over the matched node `vgnId`.  First each direct child
of the replacement root is re-parented to the matched node, then the
matched node's record is overwritten with the replacement root's record
while its original `parent`, `prevSibling` and `nextSibling` are preserved
(the Go tuple assignment at line 107 evaluates the right-hand side first). -/
def splice (h : Heap) (vgnId cdomId : Nat) (fuel : Nat) : Heap :=
  let cdom0 := (alook h cdomId).getD defVGNode
  let h1 := reparentChain h vgnId fuel cdom0.firstChild
  let cd := (alook h1 cdomId).getD defVGNode
  let vg := (alook h1 vgnId).getD defVGNode
  aupd h1 vgnId
    { cd with parent := vg.parent, prevSibling := vg.prevSibling, nextSibling := vg.nextSibling }

/-- Lines 96-98 of `env-static-html.go`: `if ccss != nil && ccss.FirstChild
!= nil { css.AppendChild(ccss.FirstChild) }`.  The aggregate `css` is the
root build's style node; appending when it is nil dereferences a nil
pointer, modelled as the `none` outcome.  `AppendChild` (repository code
not under `src/`) is modelled from the spec: the fragment's first child is
linked into the aggregate collection at the end, in encounter order. -/
def cssStep (css : Option VTree) (ccss : Option VTree) : Option (Option VTree) :=
  match ccss with
  | none => some css
  | some ct =>
    match ct.children.head? with
    | none => some css
    | some f =>
      match css with
      | none => none
      | some c => some (some (VTree.mk c.content (c.children ++ [f])))

/-- Abnormal outcomes of the expansion walk: a returned error from `New`
(`.new`) or from `BuildVDOM` (`.build`), a nil-pointer panic in the style
aggregation, or fuel exhaustion (modelling divergence of an unbounded
component self-reference). -/
inductive WalkErr where
  | fuel
  | nilPanic
  | new (e : String)
  | build (e : String)
deriving DecidableEq

/-- Mutable state threaded through the walk: the heap, the allocation
counter, and the aggregate style node. -/
structure RenderSt where
  heap : Heap
  next : Nat
  css : Option VTree

/-- Lines 64-109 of `env-static-html.go`: the walk callback.  Non-element
nodes and unregistered tags are skipped; a matched node's instantiation
properties are computed, a fresh instance is made and built, its style
fragment aggregated, and its subtree spliced over the matched node.
Returned errors leave the state as mutated so far (the heap is real shared
memory in Go). -/
def expandStep (reg : Registry) (id : Nat) (s : RenderSt) : Option WalkErr × RenderSt :=
  let vgn := (alook s.heap id).getD defVGNode
  if vgn.type ≠ VGNodeType.elementNode then (none, s)
  else
    match alook reg vgn.data with
    | none => (none, s)
    | some ct =>
      let props := instProps vgn.props vgn.attr
      match New ct props with
      | .error e => (some (.new e), s)
      | .ok compInst =>
        match ct.buildVDOM compInst.data with
        | .error e => (some (.build e), s)
        | .ok b =>
          let g := graftT b.dom none s.heap s.next
          match cssStep s.css b.css with
          | none => (some .nilPanic, ⟨g.1, g.2.1, s.css⟩)
          | some css1 =>
            let h3 := splice g.1 id g.2.2 g.1.length
            (none, ⟨h3, g.2.1, css1⟩)

/-- Modelled from the spec: `VGNode.Walk` (repository code not under
`src/`) performs a depth-first pre-order traversal — the callback on the
node, then its first-child chain, then its next sibling — re-reading the
(possibly spliced) node's links after the callback, and stopping at the
first error.  Fuel models divergence on unbounded recursive expansion. -/
def walk (reg : Registry) : Nat → Option Nat → RenderSt → Option WalkErr × RenderSt
  | 0, _, s => (some .fuel, s)
  | _ + 1, none, s => (none, s)
  | fuel + 1, some id, s =>
    match expandStep reg id s with
    | (some e, s1) => (some e, s1)
    | (none, s1) =>
      let fc := ((alook s1.heap id).getD defVGNode).firstChild
      match walk reg fuel fc s1 with
      | (some e, s2) => (some e, s2)
      | (none, s2) =>
        let ns := ((alook s2.heap id).getD defVGNode).nextSibling
        walk reg fuel ns s2

/-! ## Graph-to-output conversion (`conv`, lines 134-219) -/

/-- An output node, mirroring `html.Node`: five links, node type (the cast
`html.NodeType(vgn.Type)` is the identity on values), atom, data,
namespace, and the flattened attribute list. -/
structure OutNode where
  parent : Option Nat
  firstChild : Option Nat
  lastChild : Option Nat
  prevSibling : Option Nat
  nextSibling : Option Nat
  type : VGNodeType
  dataAtom : Nat
  data : String
  ns : String
  attr : List VGAttribute
deriving DecidableEq, Inhabited

/-- The freshly allocated output node `&html.Node{}` (line 149). -/
def emptyOut : OutNode := ⟨none, none, none, none, none, .errorNode, 0, "", "", []⟩

/-- State of the conversion: the identity map `ptrMap` from input node id
to output node id, the allocation counter, and the output node store. -/
structure CState where
  ptrMap : List (Nat × Nat)
  nextOut : Nat
  outNodes : List (Nat × OutNode)
deriving DecidableEq

/-- A node produced by markup-fragment parsing (`html.ParseFragment` is an
external collaborator, modelled at its interface boundary per spec §4.4:
it yields zero or more detached output-oriented nodes). -/
structure Frag where
  type : VGNodeType
  dataAtom : Nat
  data : String
  ns : String
  attr : List VGAttribute
deriving DecidableEq, Inhabited

/-- The detached output node for a parsed fragment. -/
def fragNode (fr : Frag) : OutNode :=
  ⟨none, none, none, none, none, fr.type, fr.dataAtom, fr.data, fr.ns, fr.attr⟩

/-- Update one output node's record through its id. -/
def oSet (s : CState) (i : Nat) (f : OutNode → OutNode) : CState :=
  ⟨s.ptrMap, s.nextOut, aupd s.outNodes i (f ((alook s.outNodes i).getD emptyOut))⟩

/-- Allocate a fresh output node; returns the state and the new id. -/
def allocOut (s : CState) (nd : OutNode) : CState × Nat :=
  (⟨s.ptrMap, s.nextOut + 1, (s.nextOut, nd) :: s.outNodes⟩, s.nextOut)

/-- Modelled from the spec (§4.4) at the interface boundary of the external
markup package: `(*html.Node).AppendChild` attaches `c` as the last child of
`p` — the previous last child's `nextSibling` is set to `c` (or `p`'s
`firstChild` when there was none), `c`'s `prevSibling` and `parent` are
set, and `p.lastChild` becomes `c`. -/
def appendChild (s : CState) (p c : Nat) : CState :=
  let last := ((alook s.outNodes p).getD emptyOut).lastChild
  let s1 :=
    match last with
    | some l => oSet s l (fun n => { n with nextSibling := some c })
    | none => oSet s p (fun n => { n with firstChild := some c })
  let s2 := oSet s1 c (fun n => { n with prevSibling := last, parent := some p })
  oSet s2 p (fun n => { n with lastChild := some c })

/-- Lines 211-214: allocate each parsed fragment node and append it as a
child of the converted node. -/
def appendFrags (s : CState) (p : Nat) (frags : List Frag) : CState :=
  frags.foldl
    (fun s fr =>
      let r := allocOut s (fragNode fr)
      appendChild r.1 p r.2)
    s

/-- Abnormal outcomes of `conv`: a markup parse error, or fuel exhaustion
(the model's bound; the claim about termination is the fuel-sufficiency
theorem below). -/
inductive CErr where
  | fuel
  | parse (e : String)
deriving DecidableEq

/-- Lines 136-219 of `env-static-html.go`: convert a node id (or nil) of
the input graph into an output node id.  A nil link converts to a nil link;
an id already in `ptrMap` returns its registered output node; otherwise an
output node is allocated and registered first, the five links are converted
recursively, the content and merged attributes are copied, and a non-empty
`InnerHTML` is parsed (aborting on error) and appended as children. -/
def conv (h : Heap) (parse : String → Except String (List Frag)) :
    Nat → Option Nat → CState → Except CErr (Option Nat × CState)
  | _, none, s => .ok (none, s)
  | 0, some _, _ => .error .fuel
  | fuel + 1, some id, s =>
    match alook s.ptrMap id with
    | some o => .ok (some o, s)
    | none =>
      let vgn := (alook h id).getD defVGNode
      let o := s.nextOut
      let s0 : CState := ⟨(id, o) :: s.ptrMap, o + 1, (o, emptyOut) :: s.outNodes⟩
      match conv h parse fuel vgn.parent s0 with
      | .error e => .error e
      | .ok (pl, s1) =>
        match conv h parse fuel vgn.firstChild s1 with
        | .error e => .error e
        | .ok (fcl, s2) =>
          match conv h parse fuel vgn.lastChild s2 with
          | .error e => .error e
          | .ok (lcl, s3) =>
            match conv h parse fuel vgn.prevSibling s3 with
            | .error e => .error e
            | .ok (psl, s4) =>
              match conv h parse fuel vgn.nextSibling s4 with
              | .error e => .error e
              | .ok (nsl, s5) =>
                let nd : OutNode :=
                  ⟨pl, fcl, lcl, psl, nsl, vgn.type, vgn.dataAtom, vgn.data, vgn.ns,
                    mergeAttrs vgn.attr vgn.props⟩
                let s6 := oSet s5 o (fun _ => nd)
                if vgn.innerHTML = "" then .ok (some o, s6)
                else
                  match parse vgn.innerHTML with
                  | .error e => .error (.parse e)
                  | .ok frags => .ok (some o, appendFrags s6 o frags)

/-- The five link conversions of `conv` in source order (parent, first
child, last child, previous sibling, next sibling), factored for stating
properties; `conv_eq_convLinks` below relates it to `conv`. -/
def convLinks (h : Heap) (parse : String → Except String (List Frag)) (fuel : Nat)
    (vgn : VGNode) (s : CState) :
    Except CErr ((Option Nat × Option Nat × Option Nat × Option Nat × Option Nat) × CState) :=
  match conv h parse fuel vgn.parent s with
  | .error e => .error e
  | .ok (pl, s1) =>
    match conv h parse fuel vgn.firstChild s1 with
    | .error e => .error e
    | .ok (fcl, s2) =>
      match conv h parse fuel vgn.lastChild s2 with
      | .error e => .error e
      | .ok (lcl, s3) =>
        match conv h parse fuel vgn.prevSibling s3 with
        | .error e => .error e
        | .ok (psl, s4) =>
          match conv h parse fuel vgn.nextSibling s4 with
          | .error e => .error e
          | .ok (nsl, s5) => .ok ((pl, fcl, lcl, psl, nsl), s5)

/-! ## The render pipeline (`StaticHTMLEnv.Render`, lines 45-231) -/

/-- What the renderer hands to the external serializer (`html.Render`), in
order: the one style element wrapping the literal style text, then the
converted main tree. -/
inductive OutEvent where
  | styleBlock (text : String)
  | mainTree (root : Option Nat) (nodes : List (Nat × OutNode))
deriving DecidableEq

/-- Errors surfaced by `Render`: the root build error, a markup parse
error, a nil-pointer panic (propagating, unlike returned errors), and fuel
exhaustion (the model's divergence marker). -/
inductive RErr where
  | build (e : String)
  | parse (e : String)
  | nilPanic
  | fuel
deriving DecidableEq

instance exceptDecEq {ε α : Type} [DecidableEq ε] [DecidableEq α] : DecidableEq (Except ε α) :=
  fun a b =>
    match a, b with
    | .error e, .error f =>
      if h : e = f then .isTrue (by rw [h]) else .isFalse (by intro hc; cases hc; exact h rfl)
    | .error _, .ok _ => .isFalse (by intro hc; cases hc)
    | .ok _, .error _ => .isFalse (by intro hc; cases hc)
    | .ok x, .ok y =>
      if h : x = y then .isTrue (by rw [h]) else .isFalse (by intro hc; cases hc; exact h rfl)

/-- Result of a render: the returned error (if any) and the serialization
events already flushed to the output sink. -/
structure RenderOut where
  res : Except RErr Unit
  events : List OutEvent
deriving DecidableEq

/-- Lines 116-132: if the aggregate style node is non-nil and has a first
child, emit one `<style>` element whose single text child carries
`css.FirstChild.Data` — only the first fragment's literal text. -/
def styleEvents (css : Option VTree) : List OutEvent :=
  match css with
  | none => []
  | some c =>
    match c.children.head? with
    | none => []
    | some f => [.styleBlock f.content.data]

/-- Lines 112-231: emit the style block, convert the whole graph from the
root, and emit the converted main tree (aborting on conversion error with
the style block already flushed). -/
def renderEmit (parse : String → Except String (List Frag)) (convFuel : Nat)
    (st : RenderSt) (rootId : Nat) : RenderOut :=
  let events := styleEvents st.css
  match conv st.heap parse convFuel (some rootId) ⟨[], 0, []⟩ with
  | .error .fuel => ⟨.error .fuel, events⟩
  | .error (.parse e) => ⟨.error (.parse e), events⟩
  | .ok (outRoot, cst) => ⟨.ok (), events ++ [.mainTree outRoot cst.outNodes]⟩

/-- Lines 59-231 after a successful root build: graft the root tree, run
the expansion walk — whose returned error is assigned at line 64 but never
checked (a nil-panic or divergence still aborts, since those do not return)
— and then emit. -/
def renderAfterBuild (reg : Registry) (parse : String → Except String (List Frag))
    (walkFuel convFuel : Nat) (b : BuildOut) : RenderOut :=
  let g := graftT b.dom none [] 0
  let w := walk reg walkFuel (some g.2.2) ⟨g.1, g.2.1, b.css⟩
  match w.1 with
  | some .fuel => ⟨.error .fuel, []⟩
  | some .nilPanic => ⟨.error .nilPanic, []⟩
  | _ => renderEmit parse convFuel w.2 g.2.2

/-- `StaticHTMLEnv.Render` (lines 45-231): build the root VDOM (returning
its error), then expand, aggregate styles, convert and serialize. -/
def Render (reg : Registry) (rootInst : ComponentInst)
    (parse : String → Except String (List Frag)) (walkFuel convFuel : Nat) : RenderOut :=
  match rootInst.type.buildVDOM rootInst.data with
  | .error e => ⟨.error (.build e), []⟩
  | .ok b => renderAfterBuild reg parse walkFuel convFuel b

/-! ## The environment (lines 17-40) -/

/-- `StaticHTMLEnv`: the registry (`none` models a nil Go map), the root
instance, and the output sink (abstracted to an id). -/
structure StaticHTMLEnv where
  reg : Option Registry
  rootInst : ComponentInst
  out : Nat

/-- Lines 26-35: `NewStaticHTMLEnv` substitutes an empty map for a nil
`components` registry. -/
def NewStaticHTMLEnv (out : Nat) (rootInst : ComponentInst) (components : Option Registry) :
    StaticHTMLEnv :=
  let components := match components with
    | none => some []
    | some r => some r
  ⟨components, rootInst, out⟩

/-- Lines 38-40: `RegisterComponentType` writes `e.reg[tagName] = ct`;
writing to a nil Go map faults, modelled as `none`. -/
def RegisterComponentType (e : StaticHTMLEnv) (tagName : String) (ct : ComponentType) :
    Option StaticHTMLEnv :=
  match e.reg with
  | none => none
  | some r => some { e with reg := some (aupd r tagName ct) }

/-- `Render` on an environment: the registry field is only read during a
render (reading a nil Go map yields misses). -/
def envRender (e : StaticHTMLEnv) (parse : String → Except String (List Frag))
    (walkFuel convFuel : Nat) : RenderOut :=
  Render (e.reg.getD []) e.rootInst parse walkFuel convFuel

/-! ## Concrete fixtures -/

/-- A text node tree. -/
def tText (s : String) : VTree := .mk ⟨.textNode, 0, s, "", [], [], ""⟩ []

/-- An element node tree. -/
def tElem (tag : String) (children : List VTree) : VTree :=
  .mk ⟨.elementNode, 0, tag, "", [], [], ""⟩ children

/-- A parse function for inputs that carry no raw markup. -/
def pEmpty : String → Except String (List Frag) := fun _ => .ok []

/-- A component type whose builder always fails. -/
def ctFail : ComponentType := ⟨fun p => .ok p, fun _ => .error "boom"⟩

/-- A root component type building `<div><widget/></div>` with no style. -/
def ctRootDivWidget : ComponentType :=
  ⟨fun p => .ok p, fun _ => .ok ⟨tElem "div" [tElem "widget" []], none⟩⟩

/-- Registry mapping `widget` to the failing component type. -/
def regFail : Registry := [("widget", ctFail)]

/-- Root instance for the failing-builder scenario. -/
def instFail : ComponentInst := ⟨ctRootDivWidget, []⟩

/-! ## Claim C1 -/

theorem renderEmit_res_not_build (parse : String → Except String (List Frag)) (cf : Nat)
    (st : RenderSt) (rid : Nat) (e : String) :
    (renderEmit parse cf st rid).res ≠ Except.error (RErr.build e) := by
  unfold renderEmit
  cases hc : conv st.heap parse cf (some rid) (⟨[], 0, []⟩ : CState) with
  | error ce => cases ce <;> simp
  | ok r => simp

theorem renderAfterBuild_res_not_build (reg : Registry)
    (parse : String → Except String (List Frag)) (wf cf : Nat) (b : BuildOut) (e : String) :
    (renderAfterBuild reg parse wf cf b).res ≠ Except.error (RErr.build e) := by
  unfold renderAfterBuild
  cases hw : (walk reg wf (some (graftT b.dom none [] 0).2.2)
      ⟨(graftT b.dom none [] 0).1, (graftT b.dom none [] 0).2.1, b.css⟩).1 with
  | none => simp only [hw]; exact renderEmit_res_not_build parse cf _ _ e
  | some we =>
      cases we <;> simp only [hw] <;>
        first
          | exact renderEmit_res_not_build parse cf _ _ e
          | simp

/-- C1: the claim that a matched component's builder or instantiation error
during the expansion walk is returned by `Render` (with no subsequent
conversion or serialization) fails on the code: the error assigned from
`vdom.Walk` at line 64 is never checked.  First conjunct: whenever the root
build succeeds, `Render` never returns a component build error, whatever a
matched component's builder does.  Remaining conjuncts evaluate the failing
input: the `widget` builder fails with `boom`, the walk surfaces exactly
that error, yet `Render` returns success after performing the conversion
and emitting the serialized main tree. -/
theorem claim_C1_walk_error_dropped :
    (∀ (reg : Registry) (inst : ComponentInst) (parse : String → Except String (List Frag))
        (wf cf : Nat) (b : BuildOut),
        inst.type.buildVDOM inst.data = .ok b →
        ∀ e, (Render reg inst parse wf cf).res ≠ .error (.build e)) ∧
    ctFail.buildVDOM [] = .error "boom" ∧
    (walk regFail 10 (some 0)
        ⟨(graftT (tElem "div" [tElem "widget" []]) none [] 0).1, 2, none⟩).1
      = some (.build "boom") ∧
    (Render regFail instFail pEmpty 10 10).res = .ok () ∧
    (Render regFail instFail pEmpty 10 10).events.length = 1 := by
  refine ⟨?_, by rfl, by decide, by decide, by decide⟩
  intro reg inst parse wf cf b hb e
  unfold Render
  rw [hb]
  exact renderAfterBuild_res_not_build reg parse wf cf b e

/-- Witness for `claim_C1_walk_error_dropped`: its hypothesis discharged at
the concrete failing input. -/
theorem claim_C1_walk_error_dropped_witness :
    instFail.type.buildVDOM instFail.data = .ok ⟨tElem "div" [tElem "widget" []], none⟩ ∧
    (Render regFail instFail pEmpty 10 10).res ≠ .error (.build "boom") :=
  ⟨rfl, claim_C1_walk_error_dropped.1 regFail instFail pEmpty 10 10
    ⟨tElem "div" [tElem "widget" []], none⟩ rfl "boom"⟩

/-! ## Claim C5 -/

theorem alook_append {κ α : Type} [DecidableEq κ] (l1 l2 : List (κ × α)) (k : κ) :
    alook (l1 ++ l2) k =
      match alook l1 k with
      | some v => some v
      | none => alook l2 k := by
  induction l1 with
  | nil => simp [alook]
  | cons p t ih =>
    cases p with
    | mk k0 v0 => by_cases h : k0 = k <;> simp [alook, h, ih]

/-- C5: the properties handed to a new component instance are the matched
node's properties extended with each static attribute only where no
property (nor earlier attribute) of that key already exists — a static
attribute never overrides a bound property. -/
theorem claim_C5_instantiation_props (props : PropsList) (attrs : List VGAttribute) (k : String) :
    alook (instProps props attrs) k =
      match alook props k with
      | some v => some v
      | none => (attrs.find? (fun a => a.key = k)).map (fun a => PropVal.str a.val) := by
  induction attrs generalizing props with
  | nil => cases h : alook props k <;> simp [instProps, h]
  | cons a rest ih =>
    by_cases h : (alook props a.key).isSome
    · have e1 : instProps props (a :: rest) = instProps props rest := by
        simp [instProps, List.foldl_cons, h]
      rw [e1, ih]
      by_cases hk : a.key = k
      · rcases Option.isSome_iff_exists.mp (hk ▸ h) with ⟨v, hv⟩
        simp [hv]
      · cases hv : alook props k <;>
          simp [hv, List.find?_cons_of_neg, hk]
    · have e1 : instProps props (a :: rest)
          = instProps (props ++ [(a.key, PropVal.str a.val)]) rest := by
        simp [instProps, List.foldl_cons, h]
      have hnone : alook props a.key = none := by
        cases hv : alook props a.key
        · rfl
        · rw [hv] at h; simp at h
      rw [e1, ih, alook_append]
      by_cases hk : a.key = k
      · subst hk
        simp [hnone, alook]
      · cases hv : alook props k <;>
          simp [hv, alook, hk, List.find?_cons_of_neg]

/-! ## Claim C4 -/

theorem owa_absent (attrs : List VGAttribute) (k v : String)
    (h : attrs.any (fun a => a.key = k) = false) :
    owa attrs k v = attrs ++ [⟨"", k, v⟩] := by
  induction attrs with
  | nil => rfl
  | cons a t ih =>
    simp only [List.any_cons, Bool.or_eq_false_iff] at h
    have hk : a.key ≠ k := by
      intro hc
      rw [hc] at h
      simp at h
    simp [owa, hk, ih h.2]

theorem owa_present (attrs : List VGAttribute) (k v : String)
    (hnd : (attrs.map (fun a => a.key)).Nodup)
    (h : attrs.any (fun a => a.key = k) = true) :
    owa attrs k v = attrs.map (fun a => if a.key = k then ⟨a.ns, a.key, v⟩ else a) := by
  induction attrs with
  | nil => simp at h
  | cons a t ih =>
    simp only [List.map_cons, List.nodup_cons] at hnd
    by_cases hk : a.key = k
    · have ht : ∀ b ∈ t, ¬ b.key = k := by
        intro b hb hc
        exact hnd.1 (hk ▸ hc ▸ List.mem_map_of_mem (fun a => a.key) hb)
      have hmap : t.map (fun a => if a.key = k then (⟨a.ns, a.key, v⟩ : VGAttribute) else a) = t := by
        have : ∀ b ∈ t, (if b.key = k then (⟨b.ns, b.key, v⟩ : VGAttribute) else b) = b := by
          intro b hb
          simp [ht b hb]
        simp [List.map_congr_left this]
      simp [owa, hk, hmap]
    · have ht : t.any (fun a => a.key = k) = true := by
        simp only [List.any_cons] at h
        rcases Bool.or_eq_true_iff.mp h with h1 | h2
        · exact absurd (by simpa using h1) hk
        · exact h2
      simp [owa, hk, ih hnd.2 ht]

theorem owa_keys (attrs : List VGAttribute) (k v : String) :
    (owa attrs k v).map (fun a => a.key) =
      if attrs.any (fun a => a.key = k) then attrs.map (fun a => a.key)
      else attrs.map (fun a => a.key) ++ [k] := by
  induction attrs with
  | nil => simp [owa]
  | cons a t ih =>
    by_cases hk : a.key = k
    · simp [owa, hk]
    · by_cases ht : t.any (fun a => a.key = k) <;> simp [owa, hk, ih, ht]

theorem mergeGo_congr (p1 p2 : PropsList) (ks : List String) (acc : List VGAttribute)
    (h : ∀ k ∈ ks, alook p1 k = alook p2 k) :
    mergeGo p1 ks acc = mergeGo p2 ks acc := by
  induction ks generalizing acc with
  | nil => rfl
  | cons k kt ih =>
    have hk := h k (List.mem_cons_self k kt)
    have ht : ∀ j ∈ kt, alook p1 j = alook p2 j := fun j hj => h j (List.mem_cons_of_mem k hj)
    cases hv : alook p2 k <;> simp [mergeGo, hk, hv, ih _ ht]

theorem mergeAttrs_cons (attrs : List VGAttribute) (k : String) (v : PropVal)
    (rest : PropsList) (hk : k ∉ rest.map Prod.fst) :
    mergeAttrs attrs ((k, v) :: rest) = mergeAttrs (owa attrs k (sprint v)) rest := by
  unfold mergeAttrs
  have h1 : alook ((k, v) :: rest) k = some v := by simp [alook]
  have h2 : ∀ j ∈ rest.map Prod.fst, alook ((k, v) :: rest) j = alook rest j := by
    intro j hj
    have : k ≠ j := fun hc => hk (hc ▸ hj)
    simp [alook, this]
  simp only [List.map_cons, mergeGo, h1]
  exact mergeGo_congr _ _ _ _ h2

theorem overlayProps_cons_ne (rest : PropsList) (k : String) (v : PropVal)
    (a : VGAttribute) (h : a.key ≠ k) :
    overlayProps ((k, v) :: rest) a = overlayProps rest a := by
  have : k ≠ a.key := fun hc => h hc.symm
  simp [overlayProps, alook, this]

theorem alook_eq_none_of_not_mem {κ α : Type} [DecidableEq κ] (l : List (κ × α)) (k : κ)
    (h : k ∉ l.map Prod.fst) : alook l k = none := by
  induction l with
  | nil => rfl
  | cons p t ih =>
    obtain ⟨k0, v0⟩ := p
    simp only [List.map_cons, List.mem_cons] at h
    push_neg at h
    have hne : k0 ≠ k := fun hc => h.1 hc.symm
    simp [alook, hne, ih h.2]

theorem anyCongr {α : Type} (l : List α) (p q : α → Bool) (h : ∀ a ∈ l, p a = q a) :
    l.any p = l.any q := by
  induction l with
  | nil => rfl
  | cons a t ih =>
    simp only [List.any_cons, h a (List.mem_cons_self a t)]
    rw [ih (fun b hb => h b (List.mem_cons_of_mem a hb))]

/-- C4: the converted node's attribute list is the original ordered
attribute list with, for each property key in insertion order, the matching
attribute overwritten in place with the stringified property value, or a
new attribute appended at the end when no attribute of that key exists;
attributes with no corresponding property are unchanged.  (Keys are unique
within `attributes` and within `properties`, per the spec's data model.) -/
theorem claim_C4_output_attribute_merge (attrs : List VGAttribute) (props : PropsList)
    (hp : (props.map Prod.fst).Nodup) (ha : (attrs.map (fun a => a.key)).Nodup) :
    mergeAttrs attrs props = mergeAttrsSpec attrs props := by
  induction props generalizing attrs with
  | nil =>
    have hmap : attrs.map (overlayProps []) = attrs := by
      induction attrs with
      | nil => rfl
      | cons a t ih2 => simp_all [overlayProps, alook]
    simp [mergeAttrs, mergeGo, mergeAttrsSpec, hmap]
  | cons kv rest ih =>
    obtain ⟨k, v⟩ := kv
    simp only [List.map_cons, List.nodup_cons] at hp
    have hrest : alook rest k = none := alook_eq_none_of_not_mem rest k hp.1
    rw [mergeAttrs_cons attrs k v rest hp.1]
    by_cases hmem : attrs.any (fun a => a.key = k)
    · rw [owa_present attrs k (sprint v) ha hmem]
      have hkeys : ((attrs.map (fun a => if a.key = k then (⟨a.ns, a.key, sprint v⟩ : VGAttribute) else a)).map
          (fun a => a.key)) = attrs.map (fun a => a.key) := by
        rw [List.map_map]
        apply List.map_congr_left
        intro a _
        by_cases h : a.key = k <;> simp [h]
      rw [ih _ hp.2 (hkeys ▸ ha)]
      unfold mergeAttrsSpec
      have hmap : (attrs.map (fun a => if a.key = k then (⟨a.ns, a.key, sprint v⟩ : VGAttribute) else a)).map
          (overlayProps rest) = attrs.map (overlayProps ((k, v) :: rest)) := by
        rw [List.map_map]
        apply List.map_congr_left
        intro a _
        by_cases h : a.key = k
        · simp [overlayProps, h, alook, hrest]
        · simp only [if_neg h, Function.comp]
          exact (overlayProps_cons_ne rest k v a h).symm
      rw [hmap]
      have hpred : ∀ kv0 ∈ rest,
          ((attrs.map (fun a => if a.key = k then (⟨a.ns, a.key, sprint v⟩ : VGAttribute) else a)).any
            (fun a => a.key = kv0.1) : Bool) = attrs.any (fun a => a.key = kv0.1) := by
        intro kv0 _
        rw [List.any_map]
        apply anyCongr
        intro a _
        by_cases h : a.key = k <;> simp [h, Function.comp]
      have hfilt : (rest.filter (fun kv0 => ! (attrs.map (fun a => if a.key = k then (⟨a.ns, a.key, sprint v⟩ : VGAttribute) else a)).any (fun a => a.key = kv0.1)))
          = ((k, v) :: rest).filter (fun kv0 => ! attrs.any (fun a => a.key = kv0.1)) := by
        rw [List.filter_cons]
        have : (! attrs.any (fun a => a.key = (k, v).1)) = false := by
          simp only [hmem, Bool.not_true]
        rw [this]
        simp only [Bool.false_eq_true, if_false]
        apply List.filter_congr
        intro kv0 h0
        rw [hpred kv0 h0]
      rw [hfilt]
    · have hmem0 : attrs.any (fun a => a.key = k) = false := by
        cases h : attrs.any (fun a => a.key = k)
        · rfl
        · exact absurd h hmem
      rw [owa_absent attrs k (sprint v) hmem0]
      have hknotin : k ∉ attrs.map (fun a => a.key) := by
        intro hc
        rcases List.mem_map.mp hc with ⟨a, hmem2, hkey⟩
        rw [List.any_eq_false] at hmem0
        exact hmem0 a hmem2 (by simpa using hkey)
      have hnd2 : ((attrs ++ [(⟨"", k, sprint v⟩ : VGAttribute)]).map (fun a => a.key)).Nodup := by
        rw [List.map_append]
        refine List.Nodup.append ha (List.nodup_singleton _) ?_
        intro x hx hx2
        simp only [List.map_cons, List.map_nil, List.mem_singleton] at hx2
        subst hx2
        exact hknotin hx
      rw [ih _ hp.2 hnd2]
      unfold mergeAttrsSpec
      have hmap : (attrs ++ [(⟨"", k, sprint v⟩ : VGAttribute)]).map (overlayProps rest)
          = attrs.map (overlayProps ((k, v) :: rest)) ++ [⟨"", k, sprint v⟩] := by
        rw [List.map_append]
        congr 1
        · apply List.map_congr_left
          intro a hmem2
          have : a.key ≠ k := by
            intro hc
            exact hknotin (hc ▸ List.mem_map_of_mem (fun a => a.key) hmem2)
          exact (overlayProps_cons_ne rest k v a this).symm
        · simp [overlayProps, hrest]
      rw [hmap]
      have hfilt : (rest.filter (fun kv0 => ! (attrs ++ [(⟨"", k, sprint v⟩ : VGAttribute)]).any (fun a => a.key = kv0.1)))
          = rest.filter (fun kv0 => ! attrs.any (fun a => a.key = kv0.1)) := by
        apply List.filter_congr
        intro kv0 hmem2
        have hne : k ≠ kv0.1 := by
          intro hc
          exact hp.1 (hc ▸ List.mem_map_of_mem Prod.fst hmem2)
        simp only [List.any_append, Bool.not_or]
        have hone : (([(⟨"", k, sprint v⟩ : VGAttribute)].any (fun a => a.key = kv0.1)) : Bool) = false := by
          simp [hne]
        simp [hone]
      rw [hfilt]
      have hcons : (((k, v) :: rest).filter (fun kv0 => ! attrs.any (fun a => a.key = kv0.1)))
          = (k, v) :: rest.filter (fun kv0 => ! attrs.any (fun a => a.key = kv0.1)) := by
        rw [List.filter_cons]
        simp [hmem0]
      rw [hcons]
      simp

/-- Witness for `claim_C4_output_attribute_merge`, instantiated at the
spec's own example: attribute `foo="bar"` with properties `foo=42` and
`baz=7` yields `foo="42"` overwritten in place and `baz="7"` appended. -/
theorem claim_C4_output_attribute_merge_witness :
    ((([(⟨"", "foo", "bar"⟩ : VGAttribute)].map (fun a => a.key)).Nodup) ∧
      (([("foo", PropVal.int 42), ("baz", PropVal.int 7)].map Prod.fst).Nodup)) ∧
    mergeAttrs [⟨"", "foo", "bar"⟩] [("foo", PropVal.int 42), ("baz", PropVal.int 7)]
      = mergeAttrsSpec [⟨"", "foo", "bar"⟩] [("foo", PropVal.int 42), ("baz", PropVal.int 7)] ∧
    mergeAttrs [⟨"", "foo", "bar"⟩] [("foo", PropVal.int 42), ("baz", PropVal.int 7)]
      = [⟨"", "foo", "42"⟩, ⟨"", "baz", "7"⟩] :=
  ⟨⟨by decide, by decide⟩,
    claim_C4_output_attribute_merge _ _ (by decide) (by decide),
    by decide⟩

/-! ## Claim C2 -/

theorem alook_aupd {κ α : Type} [DecidableEq κ] (l : List (κ × α)) (k : κ) (v : α) (j : κ) :
    alook (aupd l k v) j = if k = j then some v else alook l j := by
  induction l with
  | nil => simp [aupd, alook]
  | cons p t ih =>
    obtain ⟨k0, v0⟩ := p
    by_cases h : k0 = k
    · subst h
      by_cases hj : k0 = j <;> simp [aupd, alook, hj]
    · by_cases hj : k0 = j
      · subst hj
        have : ¬ k = k0 := fun hc => h hc.symm
        simp [aupd, h, alook, this]
      · simp [aupd, h, alook, hj, ih]

/-- The `nextSibling` chain starting at a link, validated against the heap:
`none` when the chain dangles or does not terminate within the fuel. -/
def vChain (h : Heap) : Nat → Option Nat → Option (List Nat)
  | _, none => some []
  | 0, some _ => none
  | fuel + 1, some c =>
    match alook h c with
    | none => none
    | some cn => (vChain h fuel cn.nextSibling).map (fun t => c :: t)

theorem vChain_congr (h1 h2 : Heap) (fuel : Nat) (st : Option Nat)
    (h : ∀ i, (alook h2 i).map VGNode.nextSibling = (alook h1 i).map VGNode.nextSibling) :
    vChain h2 fuel st = vChain h1 fuel st := by
  induction fuel generalizing st with
  | zero => cases st <;> rfl
  | succ f ih =>
    cases st with
    | none => rfl
    | some c =>
      have hc := h c
      cases h1c : alook h1 c with
      | none =>
        rw [h1c] at hc
        cases h2c : alook h2 c with
        | none => simp [vChain, h1c, h2c]
        | some cn2 => rw [h2c] at hc; simp at hc
      | some cn1 =>
        rw [h1c] at hc
        cases h2c : alook h2 c with
        | none => rw [h2c] at hc; simp at hc
        | some cn2 =>
          rw [h2c] at hc
          simp only [Option.map_some'] at hc
          have hnext : cn2.nextSibling = cn1.nextSibling := by
            injection hc
          simp [vChain, h1c, h2c, hnext, ih]

theorem reparentChain_spec (h : Heap) (p : Nat) (fuel : Nat) (st : Option Nat) (cs : List Nat)
    (hch : vChain h fuel st = some cs) (hnd : cs.Nodup) :
    (∀ i, i ∉ cs → alook (reparentChain h p fuel st) i = alook h i) ∧
    (∀ c ∈ cs, alook (reparentChain h p fuel st) c
        = (alook h c).map (fun cn => { cn with parent := some p })) := by
  induction fuel generalizing h st cs with
  | zero =>
    cases st with
    | none =>
      simp only [vChain] at hch
      cases hch
      exact ⟨fun i _ => rfl, fun c hc => absurd hc (List.not_mem_nil c)⟩
    | some c => simp [vChain] at hch
  | succ f ih =>
    cases st with
    | none =>
      simp only [vChain] at hch
      cases hch
      exact ⟨fun i _ => rfl, fun c hc => absurd hc (List.not_mem_nil c)⟩
    | some c =>
      cases hcn : alook h c with
      | none => simp [vChain, hcn] at hch
      | some cn =>
        simp only [vChain, hcn] at hch
        cases ht : vChain h f cn.nextSibling with
        | none => rw [ht] at hch; simp at hch
        | some t =>
          rw [ht] at hch
          simp only [Option.map_some'] at hch
          cases hch
          simp only [List.nodup_cons] at hnd
          have hstep : reparentChain h p (f + 1) (some c)
              = reparentChain (aupd h c { cn with parent := some p }) p f cn.nextSibling := by
            simp [reparentChain, hcn]
          set h1 := aupd h c { cn with parent := some p } with hh1
          have hlook : ∀ i, alook h1 i = if c = i then some { cn with parent := some p } else alook h i := by
            intro i
            rw [hh1, alook_aupd]
          have hcongr : vChain h1 f cn.nextSibling = some t := by
            rw [vChain_congr h h1 f cn.nextSibling ?_]
            · exact ht
            · intro i
              rw [hlook i]
              by_cases hci : c = i
              · subst hci
                simp [hcn]
              · simp [hci]
          obtain ⟨ra, rb⟩ := ih h1 cn.nextSibling t hcongr hnd.2
          constructor
          · intro i hi
            rw [hstep]
            simp only [List.mem_cons, not_or] at hi
            rw [ra i hi.2, hlook i, if_neg (fun hc2 => hi.1 hc2.symm)]
          · intro c2 hc2
            rw [hstep]
            rcases List.mem_cons.mp hc2 with hc2 | hc2
            · subst hc2
              rw [ra c2 hnd.1, hlook c2, if_pos rfl, hcn]
              rfl
            · rw [rb c2 hc2, hlook c2, if_neg ?_]
              intro hc3
              exact hnd.1 (hc3 ▸ hc2)

/-- C2: for a matched node spliced over by a replacement subtree root, the
matched node keeps its original `parent`, `prevSibling` and `nextSibling`,
all its remaining fields become those of the replacement root, every direct
child of the replacement root is re-parented to the matched node (all other
fields of those children unchanged), and every other node of the heap is
untouched (so the matched node's position in its parent's sibling chain is
unaffected). -/
theorem claim_C2_splice_preserves_position (h : Heap) (vgnId cdomId fuel : Nat)
    (vgn cdom : VGNode) (cs : List Nat)
    (hv : alook h vgnId = some vgn) (hc : alook h cdomId = some cdom)
    (hch : vChain h fuel cdom.firstChild = some cs) (hnd : cs.Nodup)
    (hv1 : vgnId ∉ cs) (hc1 : cdomId ∉ cs) :
    alook (splice h vgnId cdomId fuel) vgnId
        = some { cdom with
                  parent := vgn.parent, prevSibling := vgn.prevSibling,
                  nextSibling := vgn.nextSibling } ∧
    (∀ c ∈ cs, alook (splice h vgnId cdomId fuel) c
        = (alook h c).map (fun cn => { cn with parent := some vgnId })) ∧
    (∀ i, i ∉ cs → i ≠ vgnId → alook (splice h vgnId cdomId fuel) i = alook h i) := by
  obtain ⟨ra, rb⟩ := reparentChain_spec h vgnId fuel cdom.firstChild cs hch hnd
  have hsp : splice h vgnId cdomId fuel
      = aupd (reparentChain h vgnId fuel cdom.firstChild) vgnId
          { ((alook (reparentChain h vgnId fuel cdom.firstChild) cdomId).getD defVGNode) with
              parent := ((alook (reparentChain h vgnId fuel cdom.firstChild) vgnId).getD defVGNode).parent,
              prevSibling := ((alook (reparentChain h vgnId fuel cdom.firstChild) vgnId).getD defVGNode).prevSibling,
              nextSibling := ((alook (reparentChain h vgnId fuel cdom.firstChild) vgnId).getD defVGNode).nextSibling } := by
    simp [splice, hc]
  have hcd : alook (reparentChain h vgnId fuel cdom.firstChild) cdomId = some cdom := by
    rw [ra cdomId hc1, hc]
  have hvg : alook (reparentChain h vgnId fuel cdom.firstChild) vgnId = some vgn := by
    rw [ra vgnId hv1, hv]
  refine ⟨?_, ?_, ?_⟩
  · rw [hsp, alook_aupd, if_pos rfl, hcd, hvg]
    rfl
  · intro c hcmem
    have hcv : c ≠ vgnId := fun hc2 => hv1 (hc2 ▸ hcmem)
    rw [hsp, alook_aupd, if_neg (fun hc2 => hcv hc2.symm)]
    exact rb c hcmem
  · intro i hi hiv
    rw [hsp, alook_aupd, if_neg (fun hc2 => hiv hc2.symm)]
    exact ra i hi

/-- Matched node fixture for the C2 witness: an element positioned between
siblings 8 and 7 under parent 9. -/
def vgnC2 : VGNode :=
  ⟨.elementNode, 0, "widget", "", [⟨"", "a", "1"⟩], [], "", some 9, none, none, some 8, some 7⟩

/-- Replacement root fixture for the C2 witness, with one child (id 6). -/
def cdomC2 : VGNode :=
  ⟨.elementNode, 0, "span", "", [], [], "", none, some 6, some 6, none, none⟩

/-- Child fixture for the C2 witness. -/
def childC2 : VGNode := ⟨.textNode, 0, "X", "", [], [], "", some 5, none, none, none, none⟩

/-- Heap fixture for the C2 witness. -/
def hC2 : Heap := [(0, vgnC2), (5, cdomC2), (6, childC2)]

/-- Witness for `claim_C2_splice_preserves_position` at a concrete splice. -/
theorem claim_C2_splice_preserves_position_witness :
    (alook hC2 0 = some vgnC2 ∧ alook hC2 5 = some cdomC2 ∧
      vChain hC2 3 cdomC2.firstChild = some [6] ∧ ([6] : List Nat).Nodup ∧
      (0 : Nat) ∉ ([6] : List Nat) ∧ (5 : Nat) ∉ ([6] : List Nat)) ∧
    (alook (splice hC2 0 5 3) 0
        = some { cdomC2 with
                  parent := vgnC2.parent, prevSibling := vgnC2.prevSibling,
                  nextSibling := vgnC2.nextSibling } ∧
      (∀ c ∈ ([6] : List Nat), alook (splice hC2 0 5 3) c
          = (alook hC2 c).map (fun cn => { cn with parent := some 0 })) ∧
      (∀ i, i ∉ ([6] : List Nat) → i ≠ 0 → alook (splice hC2 0 5 3) i = alook hC2 i)) :=
  ⟨⟨by decide, by decide, by decide, by decide, by decide, by decide⟩,
    claim_C2_splice_preserves_position hC2 0 5 3 vgnC2 cdomC2 [6]
      (by decide) (by decide) (by decide) (by decide) (by decide) (by decide)⟩

/-! ## Claim C9 -/

theorem cssStep_isSome (css : Option VTree) (x : Option VTree) (h : css.isSome) :
    (cssStep css x).isSome := by
  cases x with
  | none => simp [cssStep]
  | some ct =>
    cases hh : ct.children.head? with
    | none => simp [cssStep, hh]
    | some f =>
      cases css with
      | none => simp at h
      | some c => simp [cssStep, hh]

theorem expandStep_no_panic (reg : Registry) (id : Nat) (s : RenderSt) (h : s.css.isSome) :
    (expandStep reg id s).1 ≠ some WalkErr.nilPanic := by
  unfold expandStep
  by_cases ht : ((alook s.heap id).getD defVGNode).type ≠ VGNodeType.elementNode
  · simp [ht]
  · simp only [ht, ite_false]
    cases hr : alook reg ((alook s.heap id).getD defVGNode).data with
    | none => simp
    | some ct =>
      cases hn : New ct (instProps ((alook s.heap id).getD defVGNode).props
          ((alook s.heap id).getD defVGNode).attr) with
      | error e => simp [hn]
      | ok ci =>
        cases hb : ct.buildVDOM ci.data with
        | error e => simp [hn, hb]
        | ok b =>
          cases hcs : cssStep s.css b.css with
          | none =>
            exfalso
            have := cssStep_isSome s.css b.css h
            rw [hcs] at this
            simp at this
          | some css1 => simp [hn, hb, hcs]

/-- C9: with a nil root style node, the style-aggregation step of the
expansion walk dereferences a nil pointer as soon as a matched component
contributes a style fragment with a non-empty first child (first conjunct:
the walk step at such a node panics); and the aggregation step never
nil-panics when the root style node is present (second conjunct). -/
theorem claim_C9_nil_css_aggregation
    (reg : Registry) (id : Nat) (s : RenderSt) (ct : ComponentType)
    (ci : ComponentInst) (b : BuildOut) (t : VTree) (f : VTree) (rest : List VTree)
    (ht : ((alook s.heap id).getD defVGNode).type = VGNodeType.elementNode)
    (hr : alook reg ((alook s.heap id).getD defVGNode).data = some ct)
    (hn : New ct (instProps ((alook s.heap id).getD defVGNode).props
        ((alook s.heap id).getD defVGNode).attr) = .ok ci)
    (hb : ct.buildVDOM ci.data = .ok b) (hc : b.css = some t)
    (hch : t.children = f :: rest) (hcss : s.css = none) :
    (expandStep reg id s).1 = some WalkErr.nilPanic ∧
    (∀ (reg2 : Registry) (id2 : Nat) (s2 : RenderSt), s2.css.isSome →
      (expandStep reg2 id2 s2).1 ≠ some WalkErr.nilPanic) := by
  refine ⟨?_, fun reg2 id2 s2 h2 => expandStep_no_panic reg2 id2 s2 h2⟩
  unfold expandStep
  simp only [ht, ne_eq, not_true_eq_false, ite_false, hr, hn, hb]
  have : cssStep s.css b.css = none := by
    rw [hcss, hc]
    simp [cssStep, hch]
  simp [this]

/-- Style-fragment-producing component type for the C9 witness. -/
def ctStyled : ComponentType :=
  ⟨fun p => .ok p,
    fun _ => .ok ⟨tElem "span" [], some (VTree.mk ⟨.elementNode, 0, "style", "", [], [], ""⟩
      [tText "b color blue"])⟩⟩

/-- Registry for the C9 witness. -/
def regStyled : Registry := [("widget", ctStyled)]

/-- Heap for the C9 witness: one matched `widget` element at id 0. -/
def hC9 : Heap := [(0, ⟨.elementNode, 0, "widget", "", [], [], "", none, none, none, none, none⟩)]

/-- Witness for `claim_C9_nil_css_aggregation` at a concrete state with a
nil root style node and a style-contributing matched component. -/
theorem claim_C9_nil_css_aggregation_witness :
    ((alook (⟨hC9, 1, none⟩ : RenderSt).heap 0).getD defVGNode).type = VGNodeType.elementNode ∧
    (expandStep regStyled 0 ⟨hC9, 1, none⟩).1 = some WalkErr.nilPanic :=
  ⟨by decide,
    (claim_C9_nil_css_aggregation regStyled 0 ⟨hC9, 1, none⟩ ctStyled
      ⟨ctStyled, []⟩ ⟨tElem "span" [], some (VTree.mk ⟨.elementNode, 0, "style", "", [], [], ""⟩
        [tText "b color blue"])⟩
      (VTree.mk ⟨.elementNode, 0, "style", "", [], [], ""⟩ [tText "b color blue"])
      (tText "b color blue") []
      (by decide) rfl rfl rfl rfl rfl rfl).1⟩

/-! ## Claim C10 -/

/-- C10: `NewStaticHTMLEnv` substitutes an empty registry for a nil one, so
the resulting environment equals the one built from an explicitly empty
registry, a subsequent `RegisterComponentType` succeeds (no nil-map write
fault), and a subsequent render's expansion step matches no component tag
(it is the identity on every node and state). -/
theorem claim_C10_nil_registry (out : Nat) (inst : ComponentInst) (tag : String)
    (ct : ComponentType) :
    NewStaticHTMLEnv out inst none = NewStaticHTMLEnv out inst (some []) ∧
    (RegisterComponentType (NewStaticHTMLEnv out inst none) tag ct).isSome ∧
    (∀ (id : Nat) (s : RenderSt),
      expandStep ((NewStaticHTMLEnv out inst none).reg.getD []) id s = (none, s)) := by
  refine ⟨rfl, by simp [NewStaticHTMLEnv, RegisterComponentType], ?_⟩
  intro id s
  show expandStep [] id s = (none, s)
  unfold expandStep
  by_cases ht : ((alook s.heap id).getD defVGNode).type ≠ VGNodeType.elementNode
  · simp [ht]
  · simp only [ht, ite_false]
    simp [alook]

/-! ## Claims C6 and C7: conversion memoization and termination -/

theorem not_mem_of_alook_none {κ α : Type} [DecidableEq κ] (l : List (κ × α)) (k : κ)
    (h : alook l k = none) : k ∉ l.map Prod.fst := by
  induction l with
  | nil => simp
  | cons p t ih =>
    obtain ⟨k0, v0⟩ := p
    by_cases hk : k0 = k
    · subst hk; simp [alook] at h
    · simp only [alook, if_neg hk] at h
      simp only [List.map_cons, List.mem_cons]
      push_neg
      exact ⟨fun hc => hk hc.symm, ih h⟩

theorem alook_isSome_of_mem_keys {κ α : Type} [DecidableEq κ] (l : List (κ × α)) (k : κ)
    (h : k ∈ l.map Prod.fst) : (alook l k).isSome := by
  cases ha : alook l k with
  | none => exact absurd h (not_mem_of_alook_none l k ha)
  | some v => rfl

theorem alook_mem {κ α : Type} [DecidableEq κ] (l : List (κ × α)) (k : κ) (v : α)
    (h : alook l k = some v) : (k, v) ∈ l := by
  induction l with
  | nil => simp [alook] at h
  | cons p t ih =>
    obtain ⟨k0, v0⟩ := p
    by_cases hk : k0 = k
    · subst hk
      simp only [alook, if_pos rfl] at h
      cases h
      exact List.mem_cons_self _ _
    · simp only [alook, if_neg hk] at h
      exact List.mem_cons_of_mem _ (ih h)

/-- Well-formedness of the conversion's identity map: each input node id is
registered at most once and every registered output id is below the
allocation counter. -/
def pOk (s : CState) : Prop :=
  (s.ptrMap.map Prod.fst).Nodup ∧ ∀ po ∈ s.ptrMap, po.2 < s.nextOut

instance pOk_decidable (s : CState) : Decidable (pOk s) := by
  unfold pOk
  infer_instance

theorem pOk_alloc (s : CState) (id : Nat) (h : alook s.ptrMap id = none) (hok : pOk s) :
    pOk ⟨(id, s.nextOut) :: s.ptrMap, s.nextOut + 1, (s.nextOut, emptyOut) :: s.outNodes⟩ := by
  constructor
  · simp only [List.map_cons, List.nodup_cons]
    exact ⟨not_mem_of_alook_none s.ptrMap id h, hok.1⟩
  · intro po hpo
    rcases List.mem_cons.mp hpo with hpo | hpo
    · subst hpo; simp
    · exact Nat.lt_trans (hok.2 po hpo) (Nat.lt_succ_self _)

theorem oSet_ptrMap (s : CState) (i : Nat) (f : OutNode → OutNode) :
    (oSet s i f).ptrMap = s.ptrMap ∧ (oSet s i f).nextOut = s.nextOut := ⟨rfl, rfl⟩

theorem appendChild_ptrMap (s : CState) (p c : Nat) :
    (appendChild s p c).ptrMap = s.ptrMap ∧ (appendChild s p c).nextOut = s.nextOut := by
  unfold appendChild
  cases ((alook s.outNodes p).getD emptyOut).lastChild <;> exact ⟨rfl, rfl⟩

theorem appendFrags_ptrMap (s : CState) (p : Nat) (frags : List Frag) :
    (appendFrags s p frags).ptrMap = s.ptrMap ∧ s.nextOut ≤ (appendFrags s p frags).nextOut := by
  induction frags generalizing s with
  | nil => exact ⟨rfl, Nat.le_refl _⟩
  | cons fr rest ih =>
    have hstep : appendFrags s p (fr :: rest)
        = appendFrags (appendChild (allocOut s (fragNode fr)).1 p (allocOut s (fragNode fr)).2) p rest := rfl
    rw [hstep]
    obtain ⟨h1, h2⟩ := ih (appendChild (allocOut s (fragNode fr)).1 p (allocOut s (fragNode fr)).2)
    obtain ⟨ha, hb⟩ := appendChild_ptrMap (allocOut s (fragNode fr)).1 p (allocOut s (fragNode fr)).2
    constructor
    · rw [h1, ha]; rfl
    · refine Nat.le_trans ?_ h2
      rw [hb]
      exact Nat.le_succ _

theorem pOk_appendFrags (s : CState) (p : Nat) (frags : List Frag) (hok : pOk s) :
    pOk (appendFrags s p frags) := by
  obtain ⟨h1, h2⟩ := appendFrags_ptrMap s p frags
  constructor
  · rw [h1]; exact hok.1
  · intro po hpo
    rw [h1] at hpo
    exact Nat.lt_of_lt_of_le (hok.2 po hpo) h2

theorem conv_none_eq (h : Heap) (p : String → Except String (List Frag)) (f : Nat) (s : CState) :
    conv h p f none s = .ok (none, s) := by
  cases f <;> rfl

theorem conv_memo_eq (h : Heap) (p : String → Except String (List Frag)) (f : Nat)
    (id o : Nat) (s : CState) (hm : alook s.ptrMap id = some o) :
    conv h p (f + 1) (some id) s = .ok (some o, s) := by
  simp [conv, hm]

/-- Count of heap node ids not yet registered in an identity map. -/
def unvisP (h : Heap) (pm : List (Nat × Nat)) : Nat :=
  (h.map Prod.fst).countP (fun i => (alook pm i).isNone)

theorem countP_le_countP {α : Type} (l : List α) (p q : α → Bool)
    (h : ∀ a ∈ l, p a = true → q a = true) : l.countP p ≤ l.countP q := by
  induction l with
  | nil => simp
  | cons a t ih =>
    rw [List.countP_cons, List.countP_cons]
    have ht := ih (fun b hb => h b (List.mem_cons_of_mem a hb))
    by_cases hp : p a = true
    · rw [h a (List.mem_cons_self a t) hp, hp]
      simp
      omega
    · have hp2 : p a = false := by
        cases hpa : p a
        · rfl
        · exact absurd hpa hp
      rw [hp2]
      by_cases hq : q a = true
      · rw [hq]
        simp
        omega
      · have hq2 : q a = false := by
          cases hqa : q a
          · rfl
          · exact absurd hqa hq
        rw [hq2]
        simp
        omega

theorem unvisP_le_of_pres (h : Heap) (pm1 pm2 : List (Nat × Nat))
    (hp : ∀ id o, alook pm1 id = some o → alook pm2 id = some o) :
    unvisP h pm2 ≤ unvisP h pm1 := by
  apply countP_le_countP
  intro a _ ha
  cases h1 : alook pm1 a with
  | none => rfl
  | some o =>
    rw [hp a o h1] at ha
    simp at ha

theorem countP_insert_lt (l : List Nat) (pm : List (Nat × Nat)) (id o : Nat)
    (hmem : id ∈ l) (hnone : alook pm id = none) :
    l.countP (fun i => (alook ((id, o) :: pm) i).isNone)
      < l.countP (fun i => (alook pm i).isNone) := by
  induction l with
  | nil => simp at hmem
  | cons a t ih =>
    rw [List.countP_cons, List.countP_cons]
    have hle : t.countP (fun i => (alook ((id, o) :: pm) i).isNone)
        ≤ t.countP (fun i => (alook pm i).isNone) := by
      apply countP_le_countP
      intro b _ hb
      simp only [alook] at hb
      by_cases hid : id = b
      · simp [hid] at hb
      · rw [if_neg hid] at hb
        exact hb
    by_cases ha : id = a
    · subst ha
      have hnew : (alook ((id, o) :: pm) id).isNone = false := by simp [alook]
      have hold : (alook pm id).isNone = true := by simp [hnone]
      rw [hnew, hold]
      simp
      omega
    · have heq2 : (alook ((id, o) :: pm) a).isNone = (alook pm a).isNone := by
        simp [alook, ha]
      have hmem2 : id ∈ t := by
        rcases List.mem_cons.mp hmem with hc | hc
        · exact absurd hc ha
        · exact hc
      have := ih hmem2
      rw [heq2]
      omega

/-- A link is nil or points at a heap node. -/
def linkIn (h : Heap) : Option Nat → Prop
  | none => True
  | some j => j ∈ h.map Prod.fst

instance linkIn_decidable (h : Heap) (lk : Option Nat) : Decidable (linkIn h lk) :=
  match lk with
  | none => isTrue trivial
  | some j => inferInstanceAs (Decidable (j ∈ h.map Prod.fst))

/-- Every link of every node of the heap is nil or points at a heap node. -/
def closedHeap (h : Heap) : Prop :=
  ∀ e ∈ h, linkIn h e.2.parent ∧ linkIn h e.2.firstChild ∧ linkIn h e.2.lastChild ∧
    linkIn h e.2.prevSibling ∧ linkIn h e.2.nextSibling

instance closedHeap_decidable (h : Heap) : Decidable (closedHeap h) := by
  unfold closedHeap
  infer_instance

/-- One unfolding step of `conv` at an unregistered node, factored through
`convLinks`. -/
theorem conv_step_eq (h : Heap) (p : String → Except String (List Frag)) (f : Nat)
    (i : Nat) (s : CState) (hm : alook s.ptrMap i = none) :
    conv h p (f + 1) (some i) s =
      (match convLinks h p f ((alook h i).getD defVGNode)
          ⟨(i, s.nextOut) :: s.ptrMap, s.nextOut + 1, (s.nextOut, emptyOut) :: s.outNodes⟩ with
        | .error e => .error e
        | .ok ((pl, fcl, lcl, psl, nsl), s5) =>
          let vgn := (alook h i).getD defVGNode
          let nd : OutNode :=
            ⟨pl, fcl, lcl, psl, nsl, vgn.type, vgn.dataAtom, vgn.data, vgn.ns,
              mergeAttrs vgn.attr vgn.props⟩
          let s6 := oSet s5 s.nextOut (fun _ => nd)
          if vgn.innerHTML = "" then .ok (some s.nextOut, s6)
          else
            match p vgn.innerHTML with
            | .error e => .error (.parse e)
            | .ok frags => .ok (some s.nextOut, appendFrags s6 s.nextOut frags)) := by
  simp only [conv, hm]
  set vgn := (alook h i).getD defVGNode with hvgn
  set s0 : CState := ⟨(i, s.nextOut) :: s.ptrMap, s.nextOut + 1,
    (s.nextOut, emptyOut) :: s.outNodes⟩ with hs0
  cases h1 : conv h p f vgn.parent s0 with
  | error e => simp [convLinks, h1]
  | ok pr1 =>
    obtain ⟨pl, s1⟩ := pr1
    cases h2 : conv h p f vgn.firstChild s1 with
    | error e => simp [convLinks, h1, h2]
    | ok pr2 =>
      obtain ⟨fcl, s2⟩ := pr2
      cases h3 : conv h p f vgn.lastChild s2 with
      | error e => simp [convLinks, h1, h2, h3]
      | ok pr3 =>
        obtain ⟨lcl, s3⟩ := pr3
        cases h4 : conv h p f vgn.prevSibling s3 with
        | error e => simp [convLinks, h1, h2, h3, h4]
        | ok pr4 =>
          obtain ⟨psl, s4⟩ := pr4
          cases h5 : conv h p f vgn.nextSibling s4 with
          | error e => simp [convLinks, h1, h2, h3, h4, h5]
          | ok pr5 =>
            obtain ⟨nsl, s5⟩ := pr5
            simp [convLinks, h1, h2, h3, h4, h5]

theorem convLinks_mono (h : Heap) (p : String → Except String (List Frag)) (f : Nat)
    (ihm : ∀ (lk : Option Nat) (s : CState) (r : Option Nat) (s2 : CState),
      conv h p f lk s = .ok (r, s2) →
      (∀ id o, alook s.ptrMap id = some o → alook s2.ptrMap id = some o) ∧
      s.nextOut ≤ s2.nextOut ∧ (pOk s → pOk s2))
    (vgn : VGNode) (s : CState)
    (ls : Option Nat × Option Nat × Option Nat × Option Nat × Option Nat)
    (s5 : CState) (heq : convLinks h p f vgn s = .ok (ls, s5)) :
    (∀ id o, alook s.ptrMap id = some o → alook s5.ptrMap id = some o) ∧
    s.nextOut ≤ s5.nextOut ∧ (pOk s → pOk s5) := by
  unfold convLinks at heq
  cases h1 : conv h p f vgn.parent s with
  | error e => rw [h1] at heq; cases heq
  | ok pr1 =>
    obtain ⟨pl, s1⟩ := pr1
    simp only [h1] at heq
    obtain ⟨m1a, m1b, m1c⟩ := ihm vgn.parent s pl s1 h1
    cases h2 : conv h p f vgn.firstChild s1 with
    | error e => rw [h2] at heq; cases heq
    | ok pr2 =>
      obtain ⟨fcl, s2⟩ := pr2
      simp only [h2] at heq
      obtain ⟨m2a, m2b, m2c⟩ := ihm vgn.firstChild s1 fcl s2 h2
      cases h3 : conv h p f vgn.lastChild s2 with
      | error e => rw [h3] at heq; cases heq
      | ok pr3 =>
        obtain ⟨lcl, s3⟩ := pr3
        simp only [h3] at heq
        obtain ⟨m3a, m3b, m3c⟩ := ihm vgn.lastChild s2 lcl s3 h3
        cases h4 : conv h p f vgn.prevSibling s3 with
        | error e => rw [h4] at heq; cases heq
        | ok pr4 =>
          obtain ⟨psl, s4⟩ := pr4
          simp only [h4] at heq
          obtain ⟨m4a, m4b, m4c⟩ := ihm vgn.prevSibling s3 psl s4 h4
          cases h5 : conv h p f vgn.nextSibling s4 with
          | error e => rw [h5] at heq; cases heq
          | ok pr5 =>
            obtain ⟨nsl, s5x⟩ := pr5
            simp only [h5] at heq
            obtain ⟨m5a, m5b, m5c⟩ := ihm vgn.nextSibling s4 nsl s5x h5
            cases heq
            refine ⟨?_, ?_, ?_⟩
            · exact fun id o hp => m5a id o (m4a id o (m3a id o (m2a id o (m1a id o hp))))
            · exact Nat.le_trans m1b (Nat.le_trans m2b (Nat.le_trans m3b (Nat.le_trans m4b m5b)))
            · exact fun hok => m5c (m4c (m3c (m2c (m1c hok))))

theorem conv_mono (h : Heap) (p : String → Except String (List Frag)) :
    ∀ (f : Nat) (lk : Option Nat) (s : CState) (r : Option Nat) (s2 : CState),
      conv h p f lk s = .ok (r, s2) →
      (∀ id o, alook s.ptrMap id = some o → alook s2.ptrMap id = some o) ∧
      s.nextOut ≤ s2.nextOut ∧ (pOk s → pOk s2) := by
  intro f
  induction f with
  | zero =>
    intro lk s r s2 heq
    cases lk with
    | none =>
      rw [conv_none_eq] at heq
      cases heq
      exact ⟨fun _ _ hp => hp, Nat.le_refl _, id⟩
    | some i => simp [conv] at heq
  | succ f ih =>
    intro lk s r s2 heq
    cases lk with
    | none =>
      rw [conv_none_eq] at heq
      cases heq
      exact ⟨fun _ _ hp => hp, Nat.le_refl _, id⟩
    | some i =>
      cases hm : alook s.ptrMap i with
      | some o =>
        rw [conv_memo_eq h p f i o s hm] at heq
        cases heq
        exact ⟨fun _ _ hp => hp, Nat.le_refl _, id⟩
      | none =>
        rw [conv_step_eq h p f i s hm] at heq
        have hpres0 : ∀ id o, alook s.ptrMap id = some o
            → alook ((i, s.nextOut) :: s.ptrMap) id = some o := by
          intro id o hp
          have hne : i ≠ id := by
            intro hc
            rw [hc] at hm
            rw [hm] at hp
            cases hp
          show alook ((i, s.nextOut) :: s.ptrMap) id = some o
          simp [alook, hne, hp]
        cases hl : convLinks h p f ((alook h i).getD defVGNode)
            ⟨(i, s.nextOut) :: s.ptrMap, s.nextOut + 1, (s.nextOut, emptyOut) :: s.outNodes⟩ with
        | error e => rw [hl] at heq; cases heq
        | ok pr =>
          obtain ⟨⟨pl, fcl, lcl, psl, nsl⟩, s5⟩ := pr
          simp only [hl] at heq
          obtain ⟨ma, mb, mc⟩ := convLinks_mono h p f ih _ _ _ _ hl
          have hcomp : (∀ id o, alook s.ptrMap id = some o → alook s5.ptrMap id = some o) ∧
              s.nextOut ≤ s5.nextOut ∧ (pOk s → pOk s5) := by
            refine ⟨fun id o hp => ma id o (hpres0 id o hp), ?_, ?_⟩
            · exact Nat.le_trans (Nat.le_succ _) mb
            · exact fun hok => mc (pOk_alloc s i hm hok)
          by_cases hih : ((alook h i).getD defVGNode).innerHTML = ""
          · rw [if_pos hih] at heq
            cases heq
            exact hcomp
          · rw [if_neg hih] at heq
            cases hp2 : p ((alook h i).getD defVGNode).innerHTML with
            | error e => rw [hp2] at heq; cases heq
            | ok frags =>
              rw [hp2] at heq
              cases heq
              obtain ⟨ha, hb⟩ := appendFrags_ptrMap (oSet s5 s.nextOut (fun _ =>
                ⟨pl, fcl, lcl, psl, nsl, ((alook h i).getD defVGNode).type,
                  ((alook h i).getD defVGNode).dataAtom, ((alook h i).getD defVGNode).data,
                  ((alook h i).getD defVGNode).ns,
                  mergeAttrs ((alook h i).getD defVGNode).attr
                    ((alook h i).getD defVGNode).props⟩)) s.nextOut frags
              refine ⟨?_, ?_, ?_⟩
              · intro id o hp3
                rw [ha]
                exact hcomp.1 id o hp3
              · exact Nat.le_trans hcomp.2.1 hb
              · intro hok
                exact pOk_appendFrags _ _ _ (hcomp.2.2 hok)

theorem convLinks_no_fuel (h : Heap) (p : String → Except String (List Frag)) (f : Nat)
    (vgn : VGNode) (s : CState)
    (hli : linkIn h vgn.parent ∧ linkIn h vgn.firstChild ∧ linkIn h vgn.lastChild ∧
      linkIn h vgn.prevSibling ∧ linkIn h vgn.nextSibling)
    (hu : unvisP h s.ptrMap < f)
    (ihf : ∀ (lk : Option Nat) (s2 : CState), linkIn h lk → unvisP h s2.ptrMap < f →
      conv h p f lk s2 ≠ .error .fuel) :
    convLinks h p f vgn s ≠ .error .fuel := by
  unfold convLinks
  cases h1 : conv h p f vgn.parent s with
  | error e =>
    cases e with
    | fuel => exact absurd h1 (ihf vgn.parent s hli.1 hu)
    | parse e2 => simp [h1]
  | ok pr1 =>
    obtain ⟨pl, s1⟩ := pr1
    simp only [h1]
    have hu1 : unvisP h s1.ptrMap < f :=
      Nat.lt_of_le_of_lt (unvisP_le_of_pres h _ _ (conv_mono h p f vgn.parent s pl s1 h1).1) hu
    cases h2 : conv h p f vgn.firstChild s1 with
    | error e =>
      cases e with
      | fuel => exact absurd h2 (ihf vgn.firstChild s1 hli.2.1 hu1)
      | parse e2 => simp [h2]
    | ok pr2 =>
      obtain ⟨fcl, s2⟩ := pr2
      simp only [h2]
      have hu2 : unvisP h s2.ptrMap < f :=
        Nat.lt_of_le_of_lt (unvisP_le_of_pres h _ _ (conv_mono h p f vgn.firstChild s1 fcl s2 h2).1) hu1
      cases h3 : conv h p f vgn.lastChild s2 with
      | error e =>
        cases e with
        | fuel => exact absurd h3 (ihf vgn.lastChild s2 hli.2.2.1 hu2)
        | parse e2 => simp [h3]
      | ok pr3 =>
        obtain ⟨lcl, s3⟩ := pr3
        simp only [h3]
        have hu3 : unvisP h s3.ptrMap < f :=
          Nat.lt_of_le_of_lt (unvisP_le_of_pres h _ _ (conv_mono h p f vgn.lastChild s2 lcl s3 h3).1) hu2
        cases h4 : conv h p f vgn.prevSibling s3 with
        | error e =>
          cases e with
          | fuel => exact absurd h4 (ihf vgn.prevSibling s3 hli.2.2.2.1 hu3)
          | parse e2 => simp [h4]
        | ok pr4 =>
          obtain ⟨psl, s4⟩ := pr4
          simp only [h4]
          have hu4 : unvisP h s4.ptrMap < f :=
            Nat.lt_of_le_of_lt (unvisP_le_of_pres h _ _ (conv_mono h p f vgn.prevSibling s3 psl s4 h4).1) hu3
          cases h5 : conv h p f vgn.nextSibling s4 with
          | error e =>
            cases e with
            | fuel => exact absurd h5 (ihf vgn.nextSibling s4 hli.2.2.2.2 hu4)
            | parse e2 => simp [h5]
          | ok pr5 =>
            obtain ⟨nsl, s5⟩ := pr5
            simp [h5]

theorem conv_no_fuel (h : Heap) (p : String → Except String (List Frag))
    (hcl : closedHeap h) :
    ∀ (f : Nat) (lk : Option Nat) (s : CState),
      linkIn h lk → unvisP h s.ptrMap < f → conv h p f lk s ≠ .error .fuel := by
  intro f
  induction f with
  | zero =>
    intro lk s _ hu
    exact absurd hu (Nat.not_lt_zero _)
  | succ f ih =>
    intro lk s hli hu
    cases lk with
    | none =>
      rw [conv_none_eq]
      simp
    | some i =>
      cases hm : alook s.ptrMap i with
      | some o =>
        rw [conv_memo_eq h p f i o s hm]
        simp
      | none =>
        rw [conv_step_eq h p f i s hm]
        have hikeys : i ∈ h.map Prod.fst := hli
        obtain ⟨vgn, hvgn⟩ : ∃ vgn, alook h i = some vgn := by
          cases ha : alook h i with
          | none => exact absurd hikeys (not_mem_of_alook_none h i ha)
          | some v => exact ⟨v, rfl⟩
        have hlinks := hcl (i, vgn) (alook_mem h i vgn hvgn)
        have hgetd : (alook h i).getD defVGNode = vgn := by rw [hvgn]; rfl
        rw [hgetd]
        have hu0 : unvisP h ((i, s.nextOut) :: s.ptrMap) < f := by
          have hlt := countP_insert_lt (h.map Prod.fst) s.ptrMap i s.nextOut hikeys hm
          unfold unvisP at hu
          unfold unvisP
          omega
        cases hl : convLinks h p f vgn
            ⟨(i, s.nextOut) :: s.ptrMap, s.nextOut + 1, (s.nextOut, emptyOut) :: s.outNodes⟩ with
        | error e =>
          cases e with
          | fuel =>
            exact absurd hl (convLinks_no_fuel h p f vgn _ hlinks hu0
              (fun lk2 s2 ha hb => ih lk2 s2 ha hb))
          | parse e2 => simp [hl]
        | ok pr =>
          obtain ⟨⟨pl, fcl, lcl, psl, nsl⟩, s5⟩ := pr
          simp only [hl]
          by_cases hih : vgn.innerHTML = ""
          · simp [hih]
          · cases hp2 : p vgn.innerHTML with
            | error e => simp [hih, hp2]
            | ok frags => simp [hih, hp2]

/-- C6: the conversion is memoized by node identity: a nil input link
converts to a nil output link (first conjunct); converting a node already
registered in the identity map returns its registered output node and
leaves the state untouched, no matter which link direction reaches it
(second conjunct); and any conversion preserves every existing
registration and the map's well-formedness — each distinct input node keeps
exactly the one output node allocated for it (third conjunct). -/
theorem claim_C6_conv_memoized (h : Heap) (p : String → Except String (List Frag)) :
    (∀ (f : Nat) (s : CState), conv h p f none s = .ok (none, s)) ∧
    (∀ (f : Nat) (id o : Nat) (s : CState), alook s.ptrMap id = some o →
      conv h p (f + 1) (some id) s = .ok (some o, s)) ∧
    (∀ (f : Nat) (lk : Option Nat) (s : CState) (r : Option Nat) (s2 : CState),
      conv h p f lk s = .ok (r, s2) →
      (∀ id o, alook s.ptrMap id = some o → alook s2.ptrMap id = some o) ∧
      (pOk s → pOk s2)) :=
  ⟨fun f s => conv_none_eq h p f s,
    fun f id o s hm => conv_memo_eq h p f id o s hm,
    fun f lk s r s2 heq =>
      ⟨(conv_mono h p f lk s r s2 heq).1, (conv_mono h p f lk s r s2 heq).2.2⟩⟩

/-- Witness for `claim_C6_conv_memoized`: hypotheses discharged on a
one-node heap whose node is already registered. -/
theorem claim_C6_conv_memoized_witness :
    (conv [(0, defVGNode)] pEmpty 1 none ⟨[], 0, []⟩ = .ok (none, ⟨[], 0, []⟩)) ∧
    (conv [(0, defVGNode)] pEmpty 3 (some 0) ⟨[(0, 0)], 1, [(0, emptyOut)]⟩
      = .ok (some 0, ⟨[(0, 0)], 1, [(0, emptyOut)]⟩)) ∧
    ((∀ id o, alook (⟨[(0, 0)], 1, [(0, emptyOut)]⟩ : CState).ptrMap id = some o →
        alook (⟨[(0, 0)], 1, [(0, emptyOut)]⟩ : CState).ptrMap id = some o) ∧
      (pOk ⟨[(0, 0)], 1, [(0, emptyOut)]⟩ → pOk ⟨[(0, 0)], 1, [(0, emptyOut)]⟩)) :=
  ⟨(claim_C6_conv_memoized [(0, defVGNode)] pEmpty).1 1 ⟨[], 0, []⟩,
    (claim_C6_conv_memoized [(0, defVGNode)] pEmpty).2.1 2 0 0 ⟨[(0, 0)], 1, [(0, emptyOut)]⟩
      (by decide),
    (claim_C6_conv_memoized [(0, defVGNode)] pEmpty).2.2 3 (some 0)
      ⟨[(0, 0)], 1, [(0, emptyOut)]⟩ (some 0) ⟨[(0, 0)], 1, [(0, emptyOut)]⟩
      ((claim_C6_conv_memoized [(0, defVGNode)] pEmpty).2.1 2 0 0
        ⟨[(0, 0)], 1, [(0, emptyOut)]⟩ (by decide))⟩

/-- C7: the conversion terminates on every finite closed node graph,
cycles through back-references included: whenever the fuel exceeds the
number of not-yet-registered heap nodes, `conv` does not exhaust it,
because every node is registered in the identity map before its links are
resolved. -/
theorem claim_C7_conv_terminates (h : Heap) (p : String → Except String (List Frag))
    (f : Nat) (lk : Option Nat) (s : CState)
    (hcl : closedHeap h) (hli : linkIn h lk) (hf : unvisP h s.ptrMap < f) :
    conv h p f lk s ≠ .error .fuel :=
  conv_no_fuel h p hcl f lk s hli hf

/-- Cyclic two-node heap (mutual parent/child back-references) for the C7
witness. -/
def hC7 : Heap :=
  [(0, ⟨.elementNode, 0, "div", "", [], [], "", none, some 1, some 1, none, none⟩),
   (1, ⟨.textNode, 0, "x", "", [], [], "", some 0, none, none, none, none⟩)]

/-- Witness for `claim_C7_conv_terminates` on the cyclic heap. -/
theorem claim_C7_conv_terminates_witness :
    (closedHeap hC7 ∧ linkIn hC7 (some 0) ∧ unvisP hC7 [] < 3) ∧
    conv hC7 pEmpty 3 (some 0) ⟨[], 0, []⟩ ≠ .error .fuel :=
  ⟨⟨by decide, by decide, by decide⟩,
    claim_C7_conv_terminates hC7 pEmpty 3 (some 0) ⟨[], 0, []⟩ (by decide) (by decide) (by decide)⟩

/-! ## Claim C8: raw-markup expansion -/

/-- The non-link content of an output node. -/
def outContent (n : OutNode) : Frag := ⟨n.type, n.dataAtom, n.data, n.ns, n.attr⟩

/-- The `nextSibling` chain among output nodes, validated against the
output store. -/
def oChain (s : CState) : Nat → Option Nat → Option (List Nat)
  | _, none => some []
  | 0, some _ => none
  | fuel + 1, some c =>
    match alook s.outNodes c with
    | none => none
    | some cn => (oChain s fuel cn.nextSibling).map (fun t => c :: t)

/-- Every stored output node id is below the allocation counter. -/
def outBounded (s : CState) : Prop := ∀ po ∈ s.outNodes, po.1 < s.nextOut

instance outBounded_decidable (s : CState) : Decidable (outBounded s) := by
  unfold outBounded
  infer_instance

theorem oSet_lookup (s : CState) (i : Nat) (f : OutNode → OutNode) (j : Nat) :
    alook (oSet s i f).outNodes j
      = if i = j then some (f ((alook s.outNodes i).getD emptyOut)) else alook s.outNodes j := by
  unfold oSet
  exact alook_aupd s.outNodes i (f ((alook s.outNodes i).getD emptyOut)) j

theorem mem_aupd {κ α : Type} [DecidableEq κ] (l : List (κ × α)) (k : κ) (v : α)
    (x : κ × α) (hx : x ∈ aupd l k v) : x = (k, v) ∨ x ∈ l := by
  induction l with
  | nil =>
    simp [aupd] at hx
    exact Or.inl hx
  | cons p t ih =>
    obtain ⟨k0, v0⟩ := p
    by_cases h : k0 = k
    · subst h
      simp only [aupd, if_pos rfl] at hx
      rcases List.mem_cons.mp hx with hx | hx
      · exact Or.inl hx
      · exact Or.inr (List.mem_cons_of_mem _ hx)
    · simp only [aupd, if_neg h] at hx
      rcases List.mem_cons.mp hx with hx | hx
      · exact Or.inr (hx ▸ List.mem_cons_self _ _)
      · rcases ih hx with hx | hx
        · exact Or.inl hx
        · exact Or.inr (List.mem_cons_of_mem _ hx)

theorem outBounded_oSet (s : CState) (i : Nat) (f : OutNode → OutNode)
    (hi : i < s.nextOut) (hb : outBounded s) : outBounded (oSet s i f) := by
  intro po hpo
  rcases mem_aupd s.outNodes i _ po hpo with hpo | hpo
  · subst hpo
    exact hi
  · exact hb po hpo

theorem oChain_congr_mem (s s2 : CState) :
    ∀ (fuel : Nat) (st : Option Nat) (cs : List Nat),
      oChain s fuel st = some cs →
      (∀ i ∈ cs, alook s2.outNodes i = alook s.outNodes i) →
      oChain s2 fuel st = some cs := by
  intro fuel
  induction fuel with
  | zero =>
    intro st cs hch heq
    cases st with
    | none => exact hch
    | some c => simp [oChain] at hch
  | succ f ih =>
    intro st cs hch heq
    cases st with
    | none => exact hch
    | some c =>
      cases hcn : alook s.outNodes c with
      | none => simp [oChain, hcn] at hch
      | some cn =>
        simp only [oChain, hcn] at hch
        cases ht : oChain s f cn.nextSibling with
        | none => rw [ht] at hch; cases hch
        | some t =>
          rw [ht] at hch
          simp only [Option.map_some'] at hch
          cases hch
          have hc2 : alook s2.outNodes c = some cn := by
            rw [heq c (List.mem_cons_self _ _), hcn]
          have ht2 : oChain s2 f cn.nextSibling = some t :=
            ih cn.nextSibling t ht (fun i hi => heq i (List.mem_cons_of_mem _ hi))
          simp [oChain, hc2, ht2]

theorem oChain_mem_isSome (s : CState) :
    ∀ (fuel : Nat) (st : Option Nat) (cs : List Nat),
      oChain s fuel st = some cs → ∀ x ∈ cs, (alook s.outNodes x).isSome := by
  intro fuel
  induction fuel with
  | zero =>
    intro st cs hch x hx
    cases st with
    | none =>
      cases hch
      simp at hx
    | some c => simp [oChain] at hch
  | succ f ih =>
    intro st cs hch x hx
    cases st with
    | none =>
      cases hch
      simp at hx
    | some c =>
      cases hcn : alook s.outNodes c with
      | none => simp [oChain, hcn] at hch
      | some cn =>
        simp only [oChain, hcn] at hch
        cases ht : oChain s f cn.nextSibling with
        | none => rw [ht] at hch; cases hch
        | some t =>
          rw [ht] at hch
          simp only [Option.map_some'] at hch
          cases hch
          rcases List.mem_cons.mp hx with hx | hx
          · subst hx
            simp [hcn]
          · exact ih cn.nextSibling t ht x hx

theorem oChain_eq_nil (s : CState) (fuel : Nat) (st : Option Nat)
    (h : oChain s fuel st = some []) : st = none := by
  cases st with
  | none => rfl
  | some c =>
    cases fuel with
    | zero => simp [oChain] at h
    | succ f =>
      cases hcn : alook s.outNodes c with
      | none => simp [oChain, hcn] at h
      | some cn =>
        simp only [oChain, hcn] at h
        cases ht : oChain s f cn.nextSibling with
        | none => rw [ht] at h; cases h
        | some t =>
          rw [ht] at h
          simp at h

theorem mem_of_getLast?_eq {α : Type} (l : List α) (a : α) (h : l.getLast? = some a) : a ∈ l := by
  rcases List.mem_getLast?_eq_getLast (Option.mem_def.mpr h) with ⟨hne, heq⟩
  rw [heq]
  exact List.getLast_mem hne

theorem oChain_extend (s s2 : CState) (c : Nat) :
    ∀ (fuel : Nat) (st : Option Nat) (cs : List Nat) (lastId : Nat),
      oChain s fuel st = some cs →
      cs.getLast? = some lastId →
      cs.Nodup →
      c ∉ cs →
      (∀ i ∈ cs, i ≠ lastId → alook s2.outNodes i = alook s.outNodes i) →
      (∀ lr, alook s.outNodes lastId = some lr →
        alook s2.outNodes lastId = some { lr with nextSibling := some c }) →
      (∃ cn2, alook s2.outNodes c = some cn2 ∧ cn2.nextSibling = none) →
      oChain s2 (fuel + 1) st = some (cs ++ [c]) := by
  intro fuel
  induction fuel with
  | zero =>
    intro st cs lastId hch hlast _ _ _ _ _
    cases st with
    | none =>
      cases hch
      simp at hlast
    | some c0 => simp [oChain] at hch
  | succ f ih =>
    intro st cs lastId hch hlast hnd hccs hframe hlastupd hcn2
    cases st with
    | none =>
      cases hch
      simp at hlast
    | some c0 =>
      cases hcn : alook s.outNodes c0 with
      | none => simp [oChain, hcn] at hch
      | some cn0 =>
        simp only [oChain, hcn] at hch
        cases ht : oChain s f cn0.nextSibling with
        | none => rw [ht] at hch; cases hch
        | some t =>
          rw [ht] at hch
          simp only [Option.map_some'] at hch
          cases hch
          simp only [List.nodup_cons] at hnd
          cases t with
          | nil =>
            have hl0 : lastId = c0 := by
              simp at hlast
              exact hlast.symm
            subst hl0
            have h2last : alook s2.outNodes lastId = some { cn0 with nextSibling := some c } :=
              hlastupd cn0 hcn
            obtain ⟨cn2, hcn2a, hcn2b⟩ := hcn2
            simp only [oChain, h2last]
            simp [oChain, hcn2a, hcn2b]
          | cons t0 tr =>
            have hlast2 : (t0 :: tr).getLast? = some lastId := by
              rw [← hlast]
              rfl
            have hc0last : c0 ≠ lastId := by
              intro hc
              have : lastId ∈ t0 :: tr := mem_of_getLast?_eq _ _ hlast2
              exact hnd.1 (hc ▸ this)
            have hc0frame : alook s2.outNodes c0 = some cn0 := by
              rw [hframe c0 (List.mem_cons_self _ _) hc0last, hcn]
            have hrec := ih cn0.nextSibling (t0 :: tr) lastId ht hlast2 hnd.2
              (fun hc => hccs (List.mem_cons_of_mem _ hc))
              (fun i hi hne => hframe i (List.mem_cons_of_mem _ hi) hne)
              hlastupd hcn2
            simp [oChain, hc0frame, hrec]

theorem appendChild_chain (s : CState) (p c : Nat) (cs : List Nat) (fuel : Nat)
    (pn cn : OutNode)
    (hpn : alook s.outNodes p = some pn)
    (hcn : alook s.outNodes c = some cn) (hcnext : cn.nextSibling = none)
    (hch : oChain s fuel pn.firstChild = some cs)
    (hlast : pn.lastChild = cs.getLast?)
    (hnd : cs.Nodup) (hpcs : p ∉ cs) (hccs : c ∉ cs) (hcp : c ≠ p) :
    ∃ pn2 cn2,
      alook (appendChild s p c).outNodes p = some pn2 ∧
      alook (appendChild s p c).outNodes c = some cn2 ∧
      oChain (appendChild s p c) (fuel + 1) pn2.firstChild = some (cs ++ [c]) ∧
      pn2.lastChild = some c ∧
      cn2.nextSibling = none ∧ cn2.parent = some p ∧ outContent cn2 = outContent cn ∧
      (∀ i, i ∉ cs → i ≠ p → i ≠ c →
        alook (appendChild s p c).outNodes i = alook s.outNodes i) ∧
      (∀ i ∈ cs,
        (alook (appendChild s p c).outNodes i).map outContent
          = (alook s.outNodes i).map outContent ∧
        (alook (appendChild s p c).outNodes i).map OutNode.parent
          = (alook s.outNodes i).map OutNode.parent) := by
  have hpc : p ≠ c := fun h => hcp h.symm
  cases hgl : cs.getLast? with
  | none =>
    have hcsnil : cs = [] := List.getLast?_eq_none_iff.mp hgl
    subst hcsnil
    have hlastnone : ((alook s.outNodes p).getD emptyOut).lastChild = none := by
      rw [hpn]
      show pn.lastChild = none
      rw [hlast]
      rfl
    have hac : appendChild s p c
        = oSet (oSet (oSet s p (fun n => { n with firstChild := some c })) c
            (fun n => { n with prevSibling := none, parent := some p })) p
            (fun n => { n with lastChild := some c }) := by
      unfold appendChild
      rw [hlastnone]
    have hlp : alook (appendChild s p c).outNodes p
        = some { pn with firstChild := some c, lastChild := some c } := by
      rw [hac, oSet_lookup, if_pos rfl, oSet_lookup, if_neg hcp, oSet_lookup, if_pos rfl, hpn]
      rfl
    have hlc : alook (appendChild s p c).outNodes c
        = some { cn with prevSibling := none, parent := some p } := by
      rw [hac, oSet_lookup, if_neg hpc, oSet_lookup, if_pos rfl, oSet_lookup, if_neg hpc, hcn]
      rfl
    refine ⟨{ pn with firstChild := some c, lastChild := some c },
      { cn with prevSibling := none, parent := some p }, hlp, hlc, ?_, rfl, hcnext, rfl, rfl,
      ?_, ?_⟩
    · show oChain (appendChild s p c) (fuel + 1) (some c) = some [c]
      simp [oChain, hlc, hcnext]
    · intro i _ hip hic
      have h1 : p ≠ i := fun h => hip h.symm
      have h2 : c ≠ i := fun h => hic h.symm
      rw [hac, oSet_lookup, if_neg h1, oSet_lookup, if_neg h2, oSet_lookup, if_neg h1]
    · intro i hi
      simp at hi
  | some lastId =>
    have hlmem : lastId ∈ cs := mem_of_getLast?_eq cs lastId hgl
    obtain ⟨lastRec, hlr⟩ : ∃ lr, alook s.outNodes lastId = some lr := by
      have := oChain_mem_isSome s fuel pn.firstChild cs hch lastId hlmem
      cases hx : alook s.outNodes lastId with
      | none => rw [hx] at this; simp at this
      | some v => exact ⟨v, rfl⟩
    have hlap : lastId ≠ p := fun h => hpcs (h ▸ hlmem)
    have hlac : lastId ≠ c := fun h => hccs (h ▸ hlmem)
    have hpla : p ≠ lastId := fun h => hlap h.symm
    have hcla : c ≠ lastId := fun h => hlac h.symm
    have hlastsome : ((alook s.outNodes p).getD emptyOut).lastChild = some lastId := by
      rw [hpn]
      show pn.lastChild = some lastId
      rw [hlast, hgl]
    have hac : appendChild s p c
        = oSet (oSet (oSet s lastId (fun n => { n with nextSibling := some c })) c
            (fun n => { n with prevSibling := some lastId, parent := some p })) p
            (fun n => { n with lastChild := some c }) := by
      unfold appendChild
      rw [hlastsome]
    have hlp : alook (appendChild s p c).outNodes p = some { pn with lastChild := some c } := by
      rw [hac, oSet_lookup, if_pos rfl, oSet_lookup, if_neg hcp, oSet_lookup, if_neg hlap, hpn]
      rfl
    have hlc : alook (appendChild s p c).outNodes c
        = some { cn with prevSibling := some lastId, parent := some p } := by
      rw [hac, oSet_lookup, if_neg hpc, oSet_lookup, if_pos rfl, oSet_lookup, if_neg hlac, hcn]
      rfl
    have hll : alook (appendChild s p c).outNodes lastId
        = some { lastRec with nextSibling := some c } := by
      rw [hac, oSet_lookup, if_neg hpla, oSet_lookup, if_neg hcla, oSet_lookup, if_pos rfl, hlr]
      rfl
    have huntouched : ∀ i, i ∉ cs → i ≠ p → i ≠ c →
        alook (appendChild s p c).outNodes i = alook s.outNodes i := by
      intro i hics hip hic
      have h1 : p ≠ i := fun h => hip h.symm
      have h2 : c ≠ i := fun h => hic h.symm
      have h3 : lastId ≠ i := fun h => hics (h ▸ hlmem)
      rw [hac, oSet_lookup, if_neg h1, oSet_lookup, if_neg h2, oSet_lookup, if_neg h3]
    have hframe2 : ∀ i ∈ cs, i ≠ lastId →
        alook (appendChild s p c).outNodes i = alook s.outNodes i := by
      intro i hi hne
      have hip : i ≠ p := fun h => hpcs (h ▸ hi)
      have hic : i ≠ c := fun h => hccs (h ▸ hi)
      have h1 : p ≠ i := fun h => hip h.symm
      have h2 : c ≠ i := fun h => hic h.symm
      have h3 : lastId ≠ i := fun h => hne h.symm
      rw [hac, oSet_lookup, if_neg h1, oSet_lookup, if_neg h2, oSet_lookup, if_neg h3]
    have hchain : oChain (appendChild s p c) (fuel + 1) pn.firstChild = some (cs ++ [c]) := by
      apply oChain_extend s (appendChild s p c) c fuel pn.firstChild cs lastId hch hgl hnd hccs
        hframe2
      · intro lr hlr2
        rw [hlr2] at hlr
        cases hlr
        exact hll
      · exact ⟨{ cn with prevSibling := some lastId, parent := some p }, hlc, hcnext⟩
    refine ⟨{ pn with lastChild := some c },
      { cn with prevSibling := some lastId, parent := some p }, hlp, hlc, hchain, rfl,
      hcnext, rfl, rfl, huntouched, ?_⟩
    intro i hi
    by_cases hne : i = lastId
    · subst hne
      rw [hll, hlr]
      exact ⟨rfl, rfl⟩
    · rw [hframe2 i hi hne]
      exact ⟨rfl, rfl⟩

theorem outContent_fragNode (fr : Frag) : outContent (fragNode fr) = fr := rfl

theorem outBounded_appendChild (s : CState) (p c : Nat) (hp : p < s.nextOut)
    (hc : c < s.nextOut)
    (hl : ∀ l, ((alook s.outNodes p).getD emptyOut).lastChild = some l → l < s.nextOut)
    (hb : outBounded s) : outBounded (appendChild s p c) := by
  unfold appendChild
  cases hlast : ((alook s.outNodes p).getD emptyOut).lastChild with
  | none =>
    exact outBounded_oSet _ p _ hp (outBounded_oSet _ c _ hc (outBounded_oSet _ p _ hp hb))
  | some l =>
    exact outBounded_oSet _ p _ hp (outBounded_oSet _ c _ hc
      (outBounded_oSet _ l _ (hl l hlast) hb))

theorem appendFrags_chain (p : Nat) :
    ∀ (frags : List Frag) (s : CState) (cs : List Nat) (fuel : Nat) (pn : OutNode),
      outBounded s →
      alook s.outNodes p = some pn →
      oChain s fuel pn.firstChild = some cs →
      pn.lastChild = cs.getLast? →
      cs.Nodup → p ∉ cs →
      ∃ pn2,
        alook (appendFrags s p frags).outNodes p = some pn2 ∧
        oChain (appendFrags s p frags) (fuel + frags.length) pn2.firstChild
          = some (cs ++ List.range' s.nextOut frags.length) ∧
        ((List.range' s.nextOut frags.length).map
            (fun i => (alook (appendFrags s p frags).outNodes i).map outContent))
          = frags.map (fun fr => some fr) ∧
        (∀ i ∈ List.range' s.nextOut frags.length,
          (alook (appendFrags s p frags).outNodes i).map OutNode.parent = some (some p)) ∧
        (∀ i, i ≠ p → i < s.nextOut →
          (alook (appendFrags s p frags).outNodes i).map outContent
            = (alook s.outNodes i).map outContent ∧
          (alook (appendFrags s p frags).outNodes i).map OutNode.parent
            = (alook s.outNodes i).map OutNode.parent) ∧
        outBounded (appendFrags s p frags) ∧
        s.nextOut ≤ (appendFrags s p frags).nextOut := by
  intro frags
  induction frags with
  | nil =>
    intro s cs fuel pn hb hpn hch hlast hnd hpcs
    refine ⟨pn, hpn, ?_, rfl, ?_, ?_, hb, Nat.le_refl _⟩
    · simpa using hch
    · intro i hi
      simp at hi
    · intro i _ _
      exact ⟨rfl, rfl⟩
  | cons fr rest ih =>
    intro s cs fuel pn hb hpn hch hlast hnd hpcs
    have hcsbound : ∀ i ∈ cs, i < s.nextOut := by
      intro i hi
      have hsome := oChain_mem_isSome s fuel pn.firstChild cs hch i hi
      cases hx : alook s.outNodes i with
      | none => rw [hx] at hsome; simp at hsome
      | some nd => exact hb (i, nd) (alook_mem _ _ _ hx)
    have hpbound : p < s.nextOut := hb (p, pn) (alook_mem _ _ _ hpn)
    set c := s.nextOut with hc
    set s1 : CState := ⟨s.ptrMap, c + 1, (c, fragNode fr) :: s.outNodes⟩ with hs1
    have hstep : appendFrags s p (fr :: rest) = appendFrags (appendChild s1 p c) p rest := rfl
    have hcp : c ≠ p := fun h => Nat.lt_irrefl c (h ▸ hpbound)
    have hccs : c ∉ cs := fun h => Nat.lt_irrefl c (hcsbound c h)
    have hlk1 : ∀ i, i ≠ c → alook s1.outNodes i = alook s.outNodes i := by
      intro i hi
      show alook ((c, fragNode fr) :: s.outNodes) i = alook s.outNodes i
      have hci : ¬ c = i := fun h => hi h.symm
      simp [alook, hci]
    have hpn1 : alook s1.outNodes p = some pn := by
      rw [hlk1 p (fun h => hcp h.symm), hpn]
    have hcn1 : alook s1.outNodes c = some (fragNode fr) := by
      show alook ((c, fragNode fr) :: s.outNodes) c = some (fragNode fr)
      simp [alook]
    have hch1 : oChain s1 fuel pn.firstChild = some cs := by
      apply oChain_congr_mem s s1 fuel pn.firstChild cs hch
      intro i hi
      exact hlk1 i (fun h => hccs (h ▸ hi))
    obtain ⟨pn2, cn2, hlp, hlc, hchain2, hplast2, hcnext2, hcpar2, hccont2, huntouched2,
        hframe2⟩ :=
      appendChild_chain s1 p c cs fuel pn (fragNode fr) hpn1 hcn1 rfl hch1 hlast hnd hpcs
        hccs hcp
    have hb1 : outBounded s1 := by
      intro po hpo
      rcases List.mem_cons.mp hpo with hpo | hpo
      · subst hpo
        exact Nat.lt_succ_self _
      · exact Nat.lt_trans (hb po hpo) (Nat.lt_succ_self _)
    have hb2 : outBounded (appendChild s1 p c) := by
      apply outBounded_appendChild s1 p c
        (Nat.lt_trans hpbound (Nat.lt_succ_self _)) (Nat.lt_succ_self _)
      · intro l hl
        rw [hpn1] at hl
        have hl2 : pn.lastChild = some l := hl
        rw [hlast] at hl2
        have : l ∈ cs := mem_of_getLast?_eq cs l hl2
        exact Nat.lt_trans (hcsbound l this) (Nat.lt_succ_self _)
      · exact hb1
    have hnextOut2 : (appendChild s1 p c).nextOut = c + 1 := (appendChild_ptrMap s1 p c).2
    have hnd2 : (cs ++ [c]).Nodup := by
      refine List.Nodup.append hnd (List.nodup_singleton _) ?_
      intro x hx hx2
      simp only [List.mem_singleton] at hx2
      subst hx2
      exact hccs hx
    have hpcs2 : p ∉ cs ++ [c] := by
      intro hx
      rcases List.mem_append.mp hx with hx | hx
      · exact hpcs hx
      · simp only [List.mem_singleton] at hx
        exact hcp hx.symm
    have hlast2 : pn2.lastChild = (cs ++ [c]).getLast? := by
      rw [List.getLast?_concat, hplast2]
    have hchain2b : oChain (appendChild s1 p c) (fuel + 1) pn2.firstChild
        = some (cs ++ [c]) := hchain2
    obtain ⟨pn3, hp3, hchain3, hcont3, hpar3, hframe3, hb3, hno3⟩ :=
      ih (appendChild s1 p c) (cs ++ [c]) (fuel + 1) pn2 hb2 hlp hchain2b hlast2 hnd2 hpcs2
    rw [hnextOut2] at hchain3 hcont3 hpar3 hframe3 hno3
    refine ⟨pn3, by rw [hstep]; exact hp3, ?_, ?_, ?_, ?_, by rw [hstep]; exact hb3, ?_⟩
    · rw [hstep]
      have harith : fuel + (fr :: rest).length = (fuel + 1) + rest.length := by
        simp only [List.length_cons]
        omega
      rw [harith]
      have hlist : cs ++ List.range' c (fr :: rest).length
          = (cs ++ [c]) ++ List.range' (c + 1) rest.length := by
        rw [List.append_assoc]
        rfl
      rw [hlist]
      exact hchain3
    · rw [hstep]
      simp only [List.length_cons]
      rw [List.range'_succ c rest.length 1]
      simp only [List.map_cons]
      have hframe3c := hframe3 c hcp (Nat.lt_succ_self c)
      rw [hframe3c.1, hlc, Option.map_some', hccont2, outContent_fragNode, hcont3]
    · rw [hstep]
      intro i hi
      simp only [List.length_cons] at hi
      rw [List.range'_succ c rest.length 1] at hi
      rcases List.mem_cons.mp hi with hi | hi
      · subst hi
        have hframe3c := hframe3 c hcp (Nat.lt_succ_self c)
        rw [hframe3c.2, hlc, Option.map_some', hcpar2]
      · exact hpar3 i hi
    · rw [hstep]
      intro i hip hilt
      have hic : i ≠ c := fun h => Nat.lt_irrefl c (h ▸ hilt)
      have hilt2 : i < c + 1 := Nat.lt_trans hilt (Nat.lt_succ_self _)
      obtain ⟨hf1, hf2⟩ := hframe3 i hip hilt2
      have hmid : (alook (appendChild s1 p c).outNodes i).map outContent
            = (alook s.outNodes i).map outContent ∧
          (alook (appendChild s1 p c).outNodes i).map OutNode.parent
            = (alook s.outNodes i).map OutNode.parent := by
        by_cases hics : i ∈ cs
        · obtain ⟨hg1, hg2⟩ := hframe2 i hics
          rw [hg1, hg2, hlk1 i hic]
          exact ⟨rfl, rfl⟩
        · rw [huntouched2 i hics hip hic, hlk1 i hic]
          exact ⟨rfl, rfl⟩
      exact ⟨hf1.trans hmid.1, hf2.trans hmid.2⟩
    · rw [hstep]
      exact Nat.le_trans (Nat.le_succ _) hno3

theorem mainTree_not_mem_styleEvents (css : Option VTree) (r : Option Nat)
    (ns : List (Nat × OutNode)) : OutEvent.mainTree r ns ∉ styleEvents css := by
  unfold styleEvents
  cases css with
  | none => simp
  | some c => cases hh : c.children.head? <;> simp [hh]

/-- C8: raw-markup expansion.  First conjunct: at a node with non-empty
`InnerHTML` whose markup fails to parse, `conv` aborts with exactly that
error.  Second conjunct: `Render` surfaces a parse error of the conversion
verbatim and serializes no main tree.  Third conjunct: when parsing
succeeds, `conv` returns the node's output id with the parsed nodes
allocated and appended as children after the already-present converted
children — the child chain becomes the old chain plus one fresh node per
fragment, in order, each carrying that fragment's content and parented at
the node's output counterpart. -/
theorem claim_C8_raw_markup_expansion :
    (∀ (h : Heap) (p : String → Except String (List Frag)) (f i : Nat) (s : CState)
        (vgn : VGNode) (pl fcl lcl psl nsl : Option Nat) (s5 : CState) (e : String),
      alook s.ptrMap i = none →
      alook h i = some vgn →
      vgn.innerHTML ≠ "" →
      p vgn.innerHTML = .error e →
      convLinks h p f vgn ⟨(i, s.nextOut) :: s.ptrMap, s.nextOut + 1,
        (s.nextOut, emptyOut) :: s.outNodes⟩ = .ok ((pl, fcl, lcl, psl, nsl), s5) →
      conv h p (f + 1) (some i) s = .error (.parse e)) ∧
    (∀ (reg : Registry) (inst : ComponentInst) (p : String → Except String (List Frag))
        (wf cf : Nat) (b : BuildOut) (e : String),
      inst.type.buildVDOM inst.data = .ok b →
      (walk reg wf (some (graftT b.dom none [] 0).2.2)
        ⟨(graftT b.dom none [] 0).1, (graftT b.dom none [] 0).2.1, b.css⟩).1
          ≠ some WalkErr.fuel →
      (walk reg wf (some (graftT b.dom none [] 0).2.2)
        ⟨(graftT b.dom none [] 0).1, (graftT b.dom none [] 0).2.1, b.css⟩).1
          ≠ some WalkErr.nilPanic →
      conv (walk reg wf (some (graftT b.dom none [] 0).2.2)
          ⟨(graftT b.dom none [] 0).1, (graftT b.dom none [] 0).2.1, b.css⟩).2.heap
          p cf (some (graftT b.dom none [] 0).2.2) ⟨[], 0, []⟩ = .error (.parse e) →
      (Render reg inst p wf cf).res = .error (.parse e) ∧
      ∀ r ns, OutEvent.mainTree r ns ∉ (Render reg inst p wf cf).events) ∧
    (∀ (h : Heap) (p : String → Except String (List Frag)) (f i : Nat) (s : CState)
        (vgn : VGNode) (pl fcl lcl psl nsl : Option Nat) (s5 : CState)
        (frags : List Frag) (cs : List Nat) (cfuel : Nat),
      alook s.ptrMap i = none →
      alook h i = some vgn →
      vgn.innerHTML ≠ "" →
      p vgn.innerHTML = .ok frags →
      convLinks h p f vgn ⟨(i, s.nextOut) :: s.ptrMap, s.nextOut + 1,
        (s.nextOut, emptyOut) :: s.outNodes⟩ = .ok ((pl, fcl, lcl, psl, nsl), s5) →
      outBounded (oSet s5 s.nextOut (fun _ =>
        ⟨pl, fcl, lcl, psl, nsl, vgn.type, vgn.dataAtom, vgn.data, vgn.ns,
          mergeAttrs vgn.attr vgn.props⟩)) →
      oChain (oSet s5 s.nextOut (fun _ =>
        ⟨pl, fcl, lcl, psl, nsl, vgn.type, vgn.dataAtom, vgn.data, vgn.ns,
          mergeAttrs vgn.attr vgn.props⟩)) cfuel fcl = some cs →
      lcl = cs.getLast? →
      cs.Nodup →
      s.nextOut ∉ cs →
      conv h p (f + 1) (some i) s
          = .ok (some s.nextOut, appendFrags (oSet s5 s.nextOut (fun _ =>
              ⟨pl, fcl, lcl, psl, nsl, vgn.type, vgn.dataAtom, vgn.data, vgn.ns,
                mergeAttrs vgn.attr vgn.props⟩)) s.nextOut frags) ∧
      (∃ pn2, alook (appendFrags (oSet s5 s.nextOut (fun _ =>
            ⟨pl, fcl, lcl, psl, nsl, vgn.type, vgn.dataAtom, vgn.data, vgn.ns,
              mergeAttrs vgn.attr vgn.props⟩)) s.nextOut frags).outNodes s.nextOut
            = some pn2 ∧
        oChain (appendFrags (oSet s5 s.nextOut (fun _ =>
            ⟨pl, fcl, lcl, psl, nsl, vgn.type, vgn.dataAtom, vgn.data, vgn.ns,
              mergeAttrs vgn.attr vgn.props⟩)) s.nextOut frags)
            (cfuel + frags.length) pn2.firstChild
          = some (cs ++ List.range' (oSet s5 s.nextOut (fun _ =>
              ⟨pl, fcl, lcl, psl, nsl, vgn.type, vgn.dataAtom, vgn.data, vgn.ns,
                mergeAttrs vgn.attr vgn.props⟩)).nextOut frags.length) ∧
        ((List.range' (oSet s5 s.nextOut (fun _ =>
              ⟨pl, fcl, lcl, psl, nsl, vgn.type, vgn.dataAtom, vgn.data, vgn.ns,
                mergeAttrs vgn.attr vgn.props⟩)).nextOut frags.length).map
            (fun j => (alook (appendFrags (oSet s5 s.nextOut (fun _ =>
                ⟨pl, fcl, lcl, psl, nsl, vgn.type, vgn.dataAtom, vgn.data, vgn.ns,
                  mergeAttrs vgn.attr vgn.props⟩)) s.nextOut frags).outNodes j).map outContent))
          = frags.map (fun fr => some fr) ∧
        (∀ j ∈ List.range' (oSet s5 s.nextOut (fun _ =>
              ⟨pl, fcl, lcl, psl, nsl, vgn.type, vgn.dataAtom, vgn.data, vgn.ns,
                mergeAttrs vgn.attr vgn.props⟩)).nextOut frags.length,
          (alook (appendFrags (oSet s5 s.nextOut (fun _ =>
              ⟨pl, fcl, lcl, psl, nsl, vgn.type, vgn.dataAtom, vgn.data, vgn.ns,
                mergeAttrs vgn.attr vgn.props⟩)) s.nextOut frags).outNodes j).map
              OutNode.parent = some (some s.nextOut)))) := by
  refine ⟨?_, ?_, ?_⟩
  · intro h p f i s vgn pl fcl lcl psl nsl s5 e hm hvgn hih hpe hl
    rw [conv_step_eq h p f i s hm]
    have hg : (alook h i).getD defVGNode = vgn := by rw [hvgn]; rfl
    rw [hg]
    simp only [hl]
    rw [if_neg hih, hpe]
  · intro reg inst p wf cf b e hb hwf hwp hcv
    unfold Render
    rw [hb]
    unfold renderAfterBuild
    have hemit : ((renderEmit p cf
        (walk reg wf (some (graftT b.dom none [] 0).2.2)
          ⟨(graftT b.dom none [] 0).1, (graftT b.dom none [] 0).2.1, b.css⟩).2
        (graftT b.dom none [] 0).2.2).res = Except.error (RErr.parse e) ∧
        ∀ r ns, OutEvent.mainTree r ns ∉ (renderEmit p cf
          (walk reg wf (some (graftT b.dom none [] 0).2.2)
            ⟨(graftT b.dom none [] 0).1, (graftT b.dom none [] 0).2.1, b.css⟩).2
          (graftT b.dom none [] 0).2.2).events) := by
      unfold renderEmit
      rw [hcv]
      exact ⟨rfl, fun r ns => mainTree_not_mem_styleEvents _ r ns⟩
    cases hw : (walk reg wf (some (graftT b.dom none [] 0).2.2)
        ⟨(graftT b.dom none [] 0).1, (graftT b.dom none [] 0).2.1, b.css⟩).1 with
    | none =>
      simp only [hw]
      exact hemit
    | some we =>
      cases we with
      | fuel => exact absurd hw hwf
      | nilPanic => exact absurd hw hwp
      | new e2 =>
        simp only [hw]
        exact hemit
      | build e2 =>
        simp only [hw]
        exact hemit
  · intro h p f i s vgn pl fcl lcl psl nsl s5 frags cs cfuel hm hvgn hih hpok hl hb6 hch6
      hlast6 hnd6 hpcs6
    have hg : (alook h i).getD defVGNode = vgn := by rw [hvgn]; rfl
    constructor
    · rw [conv_step_eq h p f i s hm, hg]
      simp only [hl]
      rw [if_neg hih, hpok]
    · have hpn6 : alook (oSet s5 s.nextOut (fun _ =>
          ⟨pl, fcl, lcl, psl, nsl, vgn.type, vgn.dataAtom, vgn.data, vgn.ns,
            mergeAttrs vgn.attr vgn.props⟩)).outNodes s.nextOut
          = some ⟨pl, fcl, lcl, psl, nsl, vgn.type, vgn.dataAtom, vgn.data, vgn.ns,
            mergeAttrs vgn.attr vgn.props⟩ := by
        rw [oSet_lookup, if_pos rfl]
      obtain ⟨pn2, h1, h2, h3, h4, _, _, _⟩ :=
        appendFrags_chain s.nextOut frags _ cs cfuel _ hb6 hpn6 hch6 hlast6 hnd6 hpcs6
      exact ⟨pn2, h1, h2, h3, h4⟩

/-- Parse function failing with `bad`, for the C8 witness. -/
def pFail8 : String → Except String (List Frag) := fun _ => .error "bad"

/-- A parsed fragment node for the C8 witness. -/
def frB : Frag := ⟨.elementNode, 0, "b", "", []⟩

/-- Parse function returning one fragment, for the C8 witness. -/
def pOk8 : String → Except String (List Frag) := fun _ => .ok [frB]

/-- A childless node carrying raw markup, for the C8 witness. -/
def nInner : VGNode := ⟨.elementNode, 0, "div", "", [], [], "x", none, none, none, none, none⟩

/-- One-node heap for the C8 witness. -/
def h8 : Heap := [(0, nInner)]

/-- Root tree carrying raw markup, for the C8 witness. -/
def tInner : VTree := VTree.mk ⟨.elementNode, 0, "div", "", [], [], "x"⟩ []

/-- Root build output for the C8 witness. -/
def bInner : BuildOut := ⟨tInner, none⟩

/-- Root component type for the C8 witness. -/
def ctInner : ComponentType := ⟨fun p0 => .ok p0, fun _ => .ok bInner⟩

/-- Root instance for the C8 witness. -/
def instInner : ComponentInst := ⟨ctInner, []⟩

/-- Witness for `claim_C8_raw_markup_expansion`: all three conjuncts
instantiated at a one-node heap whose node carries raw markup. -/
theorem claim_C8_raw_markup_expansion_witness :
    conv h8 pFail8 2 (some 0) ⟨[], 0, []⟩ = .error (.parse "bad") ∧
    ((Render [] instInner pFail8 3 3).res = .error (.parse "bad") ∧
      ∀ r ns, OutEvent.mainTree r ns ∉ (Render [] instInner pFail8 3 3).events) ∧
    conv h8 pOk8 2 (some 0) ⟨[], 0, []⟩
      = .ok (some 0, appendFrags (oSet ⟨[(0, 0)], 1, [(0, emptyOut)]⟩ 0 (fun _ =>
          ⟨none, none, none, none, none, nInner.type, nInner.dataAtom, nInner.data, nInner.ns,
            mergeAttrs nInner.attr nInner.props⟩)) 0 [frB]) :=
  ⟨claim_C8_raw_markup_expansion.1 h8 pFail8 1 0 ⟨[], 0, []⟩ nInner none none none none none
      ⟨[(0, 0)], 1, [(0, emptyOut)]⟩ "bad" rfl rfl (by decide) rfl rfl,
    claim_C8_raw_markup_expansion.2.1 [] instInner pFail8 3 3 bInner "bad" rfl
      (by decide) (by decide) (by decide),
    (claim_C8_raw_markup_expansion.2.2 h8 pOk8 1 0 ⟨[], 0, []⟩ nInner none none none none none
      ⟨[(0, 0)], 1, [(0, emptyOut)]⟩ [frB] [] 1 rfl rfl (by decide) rfl rfl
      (by decide) rfl rfl (by decide) (by decide)).1⟩

/-! ## Claim C3 -/

/-- C3: first conjunct — for a render whose aggregated style collection is
non-empty after the walk, exactly one style block is emitted, before the
main tree, and its text is only the first style fragment's literal text.
Second conjunct — the aggregation step links further fragments in after the
existing children, so the first fragment (and hence the emitted text) is
unaffected by fragments aggregated after it. -/
theorem claim_C3_single_style_block
    (reg : Registry) (inst : ComponentInst) (p : String → Except String (List Frag))
    (wf cf : Nat) (b : BuildOut) (wr : Option WalkErr) (st1 : RenderSt) (c f0 : VTree)
    (rest : List VTree)
    (hb : inst.type.buildVDOM inst.data = .ok b)
    (hw : walk reg wf (some (graftT b.dom none [] 0).2.2)
      ⟨(graftT b.dom none [] 0).1, (graftT b.dom none [] 0).2.1, b.css⟩ = (wr, st1))
    (hwf : wr ≠ some WalkErr.fuel) (hwp : wr ≠ some WalkErr.nilPanic)
    (hc : st1.css = some c) (hch : c.children = f0 :: rest) :
    (∃ t, (Render reg inst p wf cf).events = OutEvent.styleBlock f0.content.data :: t ∧
      ∀ e ∈ t, ∀ s0, e ≠ OutEvent.styleBlock s0) ∧
    (∀ (c0 : VTree) (x : Option VTree) (c2 : VTree) (g : VTree) (gr : List VTree),
      c0.children = g :: gr → cssStep (some c0) x = some (some c2) →
      c2.children.head? = some g) := by
  constructor
  · unfold Render
    rw [hb]
    unfold renderAfterBuild
    simp only [hw]
    have hemit : ∃ t, (renderEmit p cf st1 (graftT b.dom none [] 0).2.2).events
        = OutEvent.styleBlock f0.content.data :: t ∧
        ∀ e ∈ t, ∀ s0, e ≠ OutEvent.styleBlock s0 := by
      unfold renderEmit
      have hse : styleEvents st1.css = [OutEvent.styleBlock f0.content.data] := by
        rw [hc]
        show (match c.children.head? with
          | none => ([] : List OutEvent)
          | some f => [OutEvent.styleBlock f.content.data])
            = [OutEvent.styleBlock f0.content.data]
        rw [hch]
        rfl
      rw [hse]
      cases hcv : conv st1.heap p cf (some (graftT b.dom none [] 0).2.2)
          (⟨[], 0, []⟩ : CState) with
      | error ce =>
        cases ce with
        | fuel =>
          refine ⟨[], rfl, ?_⟩
          intro e he
          simp at he
        | parse e2 =>
          refine ⟨[], rfl, ?_⟩
          intro e he
          simp at he
      | ok r =>
        refine ⟨[OutEvent.mainTree r.1 r.2.outNodes], rfl, ?_⟩
        intro e he s0
        simp at he
        subst he
        intro hcontra
        cases hcontra
    cases wr with
    | none => exact hemit
    | some we =>
      cases we with
      | fuel => exact absurd rfl hwf
      | nilPanic => exact absurd rfl hwp
      | new e2 => exact hemit
      | build e2 => exact hemit
  · intro c0 x c2 g gr hg hstep
    cases x with
    | none =>
      simp only [cssStep] at hstep
      cases hstep
      rw [hg]
      rfl
    | some ct =>
      cases hh : ct.children.head? with
      | none =>
        simp only [cssStep, hh] at hstep
        cases hstep
        rw [hg]
        rfl
      | some fx =>
        simp only [cssStep, hh] at hstep
        cases hstep
        show (VTree.mk c0.content (c0.children ++ [fx])).children.head? = some g
        rw [show (VTree.mk c0.content (c0.children ++ [fx])).children
          = c0.children ++ [fx] from rfl, hg]
        rfl

/-- Root style tree (style node with literal text child) for the C3
witness. -/
def cssRootC3 : VTree := VTree.mk ⟨.elementNode, 0, "style", "", [], [], ""⟩ [tText "red"]

/-- Root build output with style for the C3 witness. -/
def bStyled : BuildOut := ⟨tElem "div" [], some cssRootC3⟩

/-- Root component type with style for the C3 witness. -/
def ctStyledRoot : ComponentType := ⟨fun p0 => .ok p0, fun _ => .ok bStyled⟩

/-- Root instance for the C3 witness. -/
def instStyled : ComponentInst := ⟨ctStyledRoot, []⟩

/-- Walk result state for the C3 witness. -/
def st1C3 : RenderSt :=
  ⟨(graftT bStyled.dom none [] 0).1, (graftT bStyled.dom none [] 0).2.1, some cssRootC3⟩

/-- Witness for `claim_C3_single_style_block` on a concrete styled render. -/
theorem claim_C3_single_style_block_witness :
    (instStyled.type.buildVDOM instStyled.data = .ok bStyled ∧
      cssRootC3.children = tText "red" :: []) ∧
    (∃ t, (Render [] instStyled pEmpty 3 3).events
        = OutEvent.styleBlock (tText "red").content.data :: t ∧
      ∀ e ∈ t, ∀ s0, e ≠ OutEvent.styleBlock s0) :=
  ⟨⟨rfl, rfl⟩,
    (claim_C3_single_style_block [] instStyled pEmpty 3 3 bStyled none st1C3 cssRootC3
      (tText "red") [] rfl rfl (by decide) (by decide) rfl rfl).1⟩

end VuguStatic
